import Mathlib

/-!
Verification of the xbfuse core (XDVDFS FUSE filesystem).

Shallow embedding of the C sources:
  src/tree.c    -- in-memory path tree: tree_insert, tree_find_entry, tree_open,
                   tree_read, tree_readdir, tree_empty
  src/xdvdfs.c  -- on-disk parsing: xbfs_recurse_file_subtree (directory record
                   traversal) and the signature scan of xbfs_init

Bytes are modeled as Nat, C strings and byte buffers as List Nat.  The byte 47
is the ASCII slash separator.  off_t values are Int, sizes from the disk are Nat.
-/

set_option maxRecDepth 8192

/-- ASCII slash, the path separator used throughout tree.c. -/
def slash : Nat := 47

/-- Model of memchr(path, slash, length): split a byte string at the first slash.
Returns the part before the slash and the part after it, or none when the string
has no slash (mirrors the memchr test in tree_insert, tree.c line 36). -/
def splitSlash : List Nat → Option (List Nat × List Nat)
  | [] => none
  | c :: cs =>
    if c = slash then some ([], cs)
    else (splitSlash cs).map (fun p => (c :: p.1, p.2))

theorem splitSlash_eq_some {p : List Nat} {a r : List Nat}
    (h : splitSlash p = some (a, r)) : p = a ++ slash :: r ∧ slash ∉ a := by
  induction p generalizing a r with
  | nil => simp [splitSlash] at h
  | cons c cs ih =>
    by_cases hc : c = slash
    · rw [splitSlash, if_pos hc] at h
      obtain ⟨ha, hr⟩ := Prod.mk.injEq .. ▸ Option.some.injEq .. ▸ h
      subst hc; subst hr
      simp [← ha]
    · rw [splitSlash, if_neg hc] at h
      rw [Option.map_eq_some'] at h
      obtain ⟨⟨b, r'⟩, hbr, heq⟩ := h
      obtain ⟨hb, hr⟩ := Prod.mk.injEq .. ▸ heq
      obtain ⟨hp, hnot⟩ := ih hbr
      subst hr
      constructor
      · rw [← hb, hp]; rfl
      · rw [← hb]
        simp only [List.mem_cons, not_or]
        exact ⟨fun hh => hc hh.symm, hnot⟩

theorem splitSlash_eq_none {p : List Nat} (h : splitSlash p = none) : slash ∉ p := by
  induction p with
  | nil => simp
  | cons c cs ih =>
    by_cases hc : c = slash
    · rw [splitSlash, if_pos hc] at h
      exact absurd h (by simp)
    · rw [splitSlash, if_neg hc] at h
      rw [Option.map_eq_none'] at h
      simp only [List.mem_cons, not_or]
      exact ⟨fun hh => hc hh.symm, ih h⟩

theorem splitSlash_of_not_mem {p : List Nat} (h : slash ∉ p) : splitSlash p = none := by
  induction p with
  | nil => rfl
  | cons c cs ih =>
    simp only [List.mem_cons, not_or] at h
    rw [splitSlash, if_neg (fun hh => h.1 hh.symm), ih h.2]
    rfl

theorem splitSlash_append {a r : List Nat} (h : slash ∉ a) :
    splitSlash (a ++ slash :: r) = some (a, r) := by
  induction a with
  | nil => simp [splitSlash]
  | cons c cs ih =>
    simp only [List.mem_cons, not_or] at h
    rw [List.cons_append, splitSlash, if_neg (fun hh => h.1 hh.symm), ih h.2]
    rfl

theorem splitSlash_length {p a r : List Nat} (h : splitSlash p = some (a, r)) :
    r.length < p.length := by
  have := (splitSlash_eq_some h).1
  subst this
  simp
  omega

/-- The directory hierarchy node, struct tree from tree.h: name, is_dir flag,
file offset, file size (off_t), number of subdirectories, and the children
(the sub pointer followed by the next chain, modeled as a list in order). -/
inductive tree where
  | mk (name : List Nat) (is_dir : Bool) (offset : Int) (size : Int)
       (nsubdirs : Nat) (sub : List tree)

def tree.name : tree → List Nat
  | .mk n _ _ _ _ _ => n

def tree.is_dir : tree → Bool
  | .mk _ d _ _ _ _ => d

def tree.offset : tree → Int
  | .mk _ _ o _ _ _ => o

def tree.size : tree → Int
  | .mk _ _ _ s _ _ => s

def tree.nsubdirs : tree → Nat
  | .mk _ _ _ _ n _ => n

def tree.sub : tree → List tree
  | .mk _ _ _ _ _ l => l

@[simp] theorem tree_name_mk (n d o s ns l) : (tree.mk n d o s ns l).name = n := rfl
@[simp] theorem tree_is_dir_mk (n d o s ns l) : (tree.mk n d o s ns l).is_dir = d := rfl
@[simp] theorem tree_offset_mk (n d o s ns l) : (tree.mk n d o s ns l).offset = o := rfl
@[simp] theorem tree_size_mk (n d o s ns l) : (tree.mk n d o s ns l).size = s := rfl
@[simp] theorem tree_nsubdirs_mk (n d o s ns l) : (tree.mk n d o s ns l).nsubdirs = ns := rfl
@[simp] theorem tree_sub_mk (n d o s ns l) : (tree.mk n d o s ns l).sub = l := rfl

/-- tree_empty from tree.c: the fresh root, empty name, directory flag set,
no children. -/
def tree_empty : tree := tree.mk [] true 0 0 0 []

/-- tree_insert from tree.c.  Splits the path at the first slash.  If a slash is
present, the first child whose name equals the leading component is reused
(scanning the sibling list from the head, with no check of its is_dir flag,
exactly as the C loop does) and the remainder is inserted there; otherwise a new
directory child is prepended at the head of the sibling list, nsubdirs is
incremented, and the remainder is inserted into the new child.  Without a slash
a new file leaf carrying offset and size is prepended.  An empty path is a
no-op (the !*path test). -/
def tree_insert (t : tree) (path : List Nat) (offset : Int) (size : Int) : tree :=
  if path = [] then t
  else
    match hs : splitSlash path with
    | some (comp, rest) =>
      match t with
      | .mk nm d o s n sub =>
        let i := sub.findIdx (fun c => c.name == comp)
        if h : i < sub.length then
          tree.mk nm d o s n (sub.set i (tree_insert sub[i] rest offset size))
        else
          tree.mk nm d o s (n + 1)
            (tree_insert (tree.mk comp true 0 0 0 []) rest offset size :: sub)
    | none =>
      match t with
      | .mk nm d o s n sub =>
        tree.mk nm d o s n (tree.mk path false offset size 0 [] :: sub)
termination_by path.length
decreasing_by
  all_goals exact splitSlash_length hs

mutual
/-- tree_find_entry from tree.c.  Returns the node itself on exact name match;
fails when the name is not a prefix of the path; otherwise the character after
the name must be a slash; an empty remainder returns the node itself; otherwise
the children are scanned in order for the first successful recursive match. -/
def tree_find_entry (t : tree) (path : List Nat) : Option tree :=
  if path = t.name then some t
  else if t.name.isPrefixOf path then
    match hd : path.drop t.name.length with
    | [] => none
    | c :: next =>
      if c = slash then
        if next = [] then some t
        else tree_find_list t.sub next
      else none
  else none
termination_by (path.length, sizeOf t)
decreasing_by
  apply Prod.Lex.left
  have h2 : (path.drop t.name.length).length = path.length - t.name.length := by
    simp
  rw [hd] at h2
  simp at h2
  omega

/-- The child scanning loop of tree_find_entry (node = root->sub; while node):
first non-null recursive result wins, in sibling list order. -/
def tree_find_list (l : List tree) (path : List Nat) : Option tree :=
  match l with
  | [] => none
  | c :: cs =>
    match tree_find_entry c path with
    | some r => some r
    | none => tree_find_list cs path
termination_by (path.length, sizeOf l)
decreasing_by
  all_goals apply Prod.Lex.right
  all_goals simp
  all_goals omega
end

/-- errno value ENOENT (no such file or directory). -/
def ENOENT : Int := 2

/-- errno value EISDIR (is a directory). -/
def EISDIR : Int := 21

/-- errno value ENOTDIR (not a directory). -/
def ENOTDIR : Int := 20

/-- errno value EROFS (read-only file system). -/
def EROFS : Int := 30

/-- The O_WRONLY flag bit (value 1 on Linux). -/
def O_WRONLY : Nat := 1

/-- The O_RDWR flag bit (value 2 on Linux). -/
def O_RDWR : Nat := 2

/-- tree_open from tree.c: reject when the O_WRONLY bit of the flags is set
(returns -EROFS before any lookup); otherwise -ENOENT when the path is absent,
0 on success.  No state is created. -/
def tree_open (flags : Nat) (root : tree) (path : List Nat) : Int :=
  if flags &&& O_WRONLY ≠ 0 then -EROFS
  else
    match tree_find_entry root path with
    | none => -ENOENT
    | some _ => 0

/-- tree_read from tree.c.  The data parameter models the backing image file;
the read syscall is modeled as drop then take, which returns fewer bytes when
the file ends early, exactly like a short read.  On success the returned list
is the transferred bytes (the C function returns their count).  The mutex held
around lseek plus read only serializes the shared cursor and has no effect on
the value read, so it is not modeled. -/
def tree_read (root : tree) (path : List Nat) (size : Nat) (offset : Int)
    (data : List Nat) : Except Int (List Nat) :=
  match tree_find_entry root path with
  | none => .error (-ENOENT)
  | some node =>
    if node.is_dir then .error (-EISDIR)
    else if offset ≥ node.size then .ok []
    else
      let clipped : Int := if offset + (size : Int) > node.size
                           then node.size - offset else (size : Int)
      .ok (((data.drop (node.offset + offset).toNat)).take clipped.toNat)

/-- tree_opendir from tree.c: -ENOENT when absent, -ENOTDIR on a file, 0 on a
directory. -/
def tree_opendir (root : tree) (path : List Nat) : Int :=
  match tree_find_entry root path with
  | none => -ENOENT
  | some node => if node.is_dir then 0 else -ENOTDIR

/-- tree_readdir from tree.c: after the lookup and directory check, the filler
is invoked with dot, dotdot, and then every child name in sibling list order.
The result models the sequence of filler calls. -/
def tree_readdir (root : tree) (path : List Nat) : Except Int (List (List Nat)) :=
  match tree_find_entry root path with
  | none => .error (-ENOENT)
  | some node =>
    if node.is_dir then .ok ([46] :: [46, 46] :: node.sub.map tree.name)
    else .error (-ENOTDIR)

/-- The LE_16 macro from xdvdfs.h: 16-bit little-endian value at index i.
Reads outside the buffer yield 0 (the C code never reads the pointer fields
out of bounds thanks to the record guard). -/
def le16 (b : List Nat) (i : Nat) : Nat := b.getD i 0 + 256 * b.getD (i + 1) 0

/-- The LE_32 macro from xdvdfs.h: 32-bit little-endian value at index i. -/
def le32 (b : List Nat) (i : Nat) : Nat :=
  b.getD i 0 + 256 * b.getD (i + 1) 0 + 65536 * b.getD (i + 2) 0
    + 16777216 * b.getD (i + 3) 0

/-- SECTOR_SIZE from xdvdfs.c. -/
def SECTOR_SIZE : Nat := 2048

/-- NAME_MAX_SIZE from xdvdfs.c: the size of the fixed path scratch buffers. -/
def NAME_MAX_SIZE : Nat := 1024

/-- The XDVD_SIGNATURE bytes, the ASCII string MICROSOFT*XBOX*MEDIA
(XDVD_SIGNATURE_SIZE = 0x14 = 20 bytes). -/
def sigBytes : List Nat :=
  [77, 73, 67, 82, 79, 83, 79, 70, 84, 42, 88, 66, 79, 88, 42, 77, 69, 68, 73, 65]

/-- One observable action of xbfs_recurse_file_subtree: either a tree_insert
call for a file record (full path, absolute byte offset, size), or a recursive
xbfs_recurse_directory call for a directory record (path with trailing slash,
data sector, data size). -/
inductive XEvent where
  | file (path : List Nat) (offset : Int) (size : Nat)
  | dir (path : List Nat) (sector : Nat) (size : Nat)
deriving DecidableEq

/-- xbfs_recurse_file_subtree from xdvdfs.c, over one loaded directory buffer.
Emits the actions in traversal order.  The C recursion has no termination
guarantee (a record can point at itself), so the embedding takes explicit fuel;
every theorem quantifies over or instantiates the fuel.  The guard is the C
test filerecord_offset + 0xD >= dir_entry_size.  Field decoding mirrors lines
139-155: left and right pointers are 16-bit LE times 4, sector and size 32-bit
LE at offsets 4 and 8, attribute byte at 0xC (bit 0x10 = directory), name
length byte at 0xD, name bytes from 0xE.  Directory records get a trailing
slash appended and become a directory recursion; file records become a
tree_insert with offset base + sector * SECTOR_SIZE. -/
def xbfs_recurse_file_subtree (fuel : Nat) (base : Int) (name_buffer : List Nat)
    (dir_entry : List Nat) (filerecord_offset : Nat) : List XEvent :=
  match fuel with
  | 0 => []
  | fuel + 1 =>
    if filerecord_offset + 13 ≥ dir_entry.length then []
    else
      let leftOff := le16 dir_entry filerecord_offset * 4
      let leftEvents :=
        if leftOff ≠ 0
        then xbfs_recurse_file_subtree fuel base name_buffer dir_entry leftOff
        else []
      let file_sector := le32 dir_entry (filerecord_offset + 4)
      let file_size := le32 dir_entry (filerecord_offset + 8)
      let file_attributes := dir_entry.getD (filerecord_offset + 12) 0
      let filename_size := dir_entry.getD (filerecord_offset + 13) 0
      let name_copy := name_buffer ++ (dir_entry.drop (filerecord_offset + 14)).take filename_size
      let ev :=
        if file_attributes &&& 16 ≠ 0
        then XEvent.dir (name_copy ++ [slash]) file_sector file_size
        else XEvent.file name_copy (base + (file_sector : Int) * SECTOR_SIZE) file_size
      let rightOff := le16 dir_entry (filerecord_offset + 2) * 4
      let rightEvents :=
        if rightOff ≠ 0
        then xbfs_recurse_file_subtree fuel base name_buffer dir_entry rightOff
        else []
      leftEvents ++ ev :: rightEvents

/-- The signature scanning loop of xbfs_init in xdvdfs.c, starting at byte
position pos of the image (initially 0).  Reads whole sectors; a short read,
meaning fewer than SECTOR_SIZE bytes remain, fails the scan (none).  When the
first 20 sector bytes equal the signature, the result carries the filesystem
base offset, which is the current position minus 32 sectors, and the 32-bit LE
root directory sector and size at sector offsets 0x14 and 0x18. -/
def xbfs_scan (data : List Nat) (pos : Nat) : Option (Int × Nat × Nat) :=
  if pos + SECTOR_SIZE ≤ data.length then
    let sector_buffer := (data.drop pos).take SECTOR_SIZE
    if sector_buffer.take 20 = sigBytes then
      some ((pos : Int) - 32 * SECTOR_SIZE, le32 sector_buffer 20, le32 sector_buffer 24)
    else
      xbfs_scan data (pos + SECTOR_SIZE)
  else none
termination_by data.length - pos
decreasing_by
  simp [SECTOR_SIZE] at *
  omega

/-! ### Unfolding lemmas for the three branches of tree_insert -/

theorem tree_insert_nil (t : tree) (off sz : Int) : tree_insert t [] off sz = t := by
  cases t with
  | mk nm d o s n sub =>
    rw [tree_insert]
    simp

theorem tree_insert_file {path : List Nat} (hne : path ≠ [])
    (hs : splitSlash path = none) (nm : List Nat) (d : Bool) (o s : Int) (n : Nat)
    (sub : List tree) (off sz : Int) :
    tree_insert (tree.mk nm d o s n sub) path off sz =
      tree.mk nm d o s n (tree.mk path false off sz 0 [] :: sub) := by
  rw [tree_insert, if_neg hne]
  split
  · rename_i comp rest hs2
    rw [hs2] at hs
    simp at hs
  · rfl

theorem tree_insert_descend {path comp rest : List Nat}
    (hs : splitSlash path = some (comp, rest)) (nm : List Nat) (d : Bool) (o s : Int)
    (n : Nat) {sub : List tree} {i : Nat}
    (hfind : sub.findIdx (fun c => c.name == comp) = i) (hi : i < sub.length)
    (off sz : Int) :
    tree_insert (tree.mk nm d o s n sub) path off sz =
      tree.mk nm d o s n (sub.set i (tree_insert sub[i] rest off sz)) := by
  have hne : path ≠ [] := by
    intro hp
    rw [hp] at hs
    simp [splitSlash] at hs
  subst hfind
  rw [tree_insert, if_neg hne]
  split
  · rename_i comp' rest' hs2
    rw [hs2] at hs
    simp only [Option.some.injEq, Prod.mk.injEq] at hs
    obtain ⟨hc, hr⟩ := hs
    subst hc; subst hr
    rw [dif_pos hi]
  · rename_i hs2
    rw [hs2] at hs
    simp at hs

theorem tree_insert_create {path comp rest : List Nat}
    (hs : splitSlash path = some (comp, rest)) (nm : List Nat) (d : Bool) (o s : Int)
    (n : Nat) {sub : List tree} (hnone : ∀ c ∈ sub, c.name ≠ comp) (off sz : Int) :
    tree_insert (tree.mk nm d o s n sub) path off sz =
      tree.mk nm d o s (n + 1)
        (tree_insert (tree.mk comp true 0 0 0 []) rest off sz :: sub) := by
  have hne : path ≠ [] := by
    intro hp
    rw [hp] at hs
    simp [splitSlash] at hs
  have hlen : sub.findIdx (fun c => c.name == comp) = sub.length := by
    apply List.findIdx_eq_length_of_false
    intro c hc
    simp [hnone c hc]
  rw [tree_insert, if_neg hne]
  split
  · rename_i comp' rest' hs2
    rw [hs2] at hs
    simp only [Option.some.injEq, Prod.mk.injEq] at hs
    obtain ⟨hc, hr⟩ := hs
    subst hc; subst hr
    rw [dif_neg]
    omega
  · rename_i hs2
    rw [hs2] at hs
    simp at hs

/-- tree_insert never changes the fields of the node it is called on, apart
from nsubdirs and the child list. -/
theorem tree_insert_fields (t : tree) (path : List Nat) (off sz : Int) :
    (tree_insert t path off sz).name = t.name ∧
    (tree_insert t path off sz).is_dir = t.is_dir ∧
    (tree_insert t path off sz).offset = t.offset ∧
    (tree_insert t path off sz).size = t.size := by
  cases t with
  | mk nm d o s n sub =>
    by_cases hp : path = []
    · simp [hp, tree_insert_nil]
    · match hs : splitSlash path with
      | some (comp, rest) =>
        by_cases hi : sub.findIdx (fun c => c.name == comp) < sub.length
        · rw [tree_insert_descend hs nm d o s n rfl hi off sz]
          simp
        · have hnone : ∀ c ∈ sub, c.name ≠ comp := by
            intro c hc hcc
            apply hi
            rw [List.findIdx_lt_length]
            exact ⟨c, hc, by simp [hcc]⟩
          rw [tree_insert_create hs nm d o s n hnone off sz]
          simp
      | none =>
        rw [tree_insert_file hp hs nm d o s n sub off sz]
        simp

/-! ### Unfolding lemmas for tree_find_entry and tree_find_list -/

/-- The leading component of a path: everything before the first slash, or the
whole path when it has no slash. -/
def firstComp (p : List Nat) : List Nat :=
  match splitSlash p with
  | none => p
  | some (c, _) => c

theorem firstComp_of_none {p : List Nat} (h : splitSlash p = none) :
    firstComp p = p := by
  rw [firstComp, h]

theorem firstComp_of_some {p c r : List Nat} (h : splitSlash p = some (c, r)) :
    firstComp p = c := by
  rw [firstComp, h]

theorem tree_find_list_nil (path : List Nat) : tree_find_list [] path = none := by
  rw [tree_find_list]

theorem tree_find_list_cons_some {c : tree} {path : List Nat} {r : tree}
    (h : tree_find_entry c path = some r) (cs : List tree) :
    tree_find_list (c :: cs) path = some r := by
  rw [tree_find_list, h]

theorem tree_find_list_cons_none {c : tree} {path : List Nat}
    (h : tree_find_entry c path = none) (cs : List tree) :
    tree_find_list (c :: cs) path = tree_find_list cs path := by
  rw [tree_find_list, h]

theorem tree_find_entry_self (t : tree) : tree_find_entry t t.name = some t := by
  rw [tree_find_entry, if_pos rfl]

/-- A node whose slash-free name differs from the leading component of the
query can never match: the search returns none without looking at children. -/
theorem tree_find_entry_none {t : tree} {path : List Nat}
    (hn : slash ∉ t.name) (hne : t.name ≠ firstComp path) :
    tree_find_entry t path = none := by
  by_cases hp : path = t.name
  · exfalso
    apply hne
    rw [hp, firstComp_of_none (splitSlash_of_not_mem hn)]
  rw [tree_find_entry, if_neg hp]
  by_cases hpre : t.name.isPrefixOf path
  · rw [if_pos hpre]
    split
    · rfl
    · rename_i c next hd
      obtain ⟨suf, hsuf⟩ := List.isPrefixOf_iff_prefix.mp hpre
      have hdrop : path.drop t.name.length = suf := by
        rw [← hsuf, List.drop_left]
      rw [hdrop] at hd
      subst hd
      by_cases hc : c = slash
      · exfalso
        apply hne
        subst hc
        rw [← hsuf, firstComp_of_some (splitSlash_append hn)]
      · rw [if_neg hc]
  · rw [if_neg hpre]

/-- Descending: a query of the form name ++ slash :: rest with nonempty rest
continues as a scan of the children with the remainder. -/
theorem tree_find_entry_descend {t : tree} {rest : List Nat}
    (hn : slash ∉ t.name) (hrest : rest ≠ []) :
    tree_find_entry t (t.name ++ slash :: rest) = tree_find_list t.sub rest := by
  have hne : t.name ++ slash :: rest ≠ t.name := by
    intro h
    have := congrArg List.length h
    simp at this
  have hpre : t.name.isPrefixOf (t.name ++ slash :: rest) :=
    List.isPrefixOf_iff_prefix.mpr ⟨slash :: rest, rfl⟩
  rw [tree_find_entry, if_neg hne, if_pos hpre]
  rw [List.drop_left]
  simp [hrest]

/-! ### Contents and structural invariant of built trees -/

/-- All file leaves reachable under a sibling list, each with its full
relative path (components joined by slashes), offset and size. -/
def contentsL : List tree → List (List Nat × Int × Int)
  | [] => []
  | tree.mk nm d o s _ sub :: cs =>
    (if d then (contentsL sub).map (fun e => (nm ++ slash :: e.1, e.2.1, e.2.2))
     else [(nm, o, s)]) ++ contentsL cs
termination_by l => sizeOf l
decreasing_by
  all_goals simp
  all_goals omega

theorem contentsL_cons (nm : List Nat) (d : Bool) (o s : Int) (n : Nat)
    (sub : List tree) (cs : List tree) :
    contentsL (tree.mk nm d o s n sub :: cs) =
      (if d then (contentsL sub).map (fun e => (nm ++ slash :: e.1, e.2.1, e.2.2))
       else [(nm, o, s)]) ++ contentsL cs := by
  rw [contentsL]

@[simp] theorem contentsL_nil : contentsL [] = [] := by rw [contentsL]

/-- A path in the shape the parser hands to tree_insert: nonempty, with a
nonempty final component (it does not end in a slash). -/
def validLast (p : List Nat) : Prop := p ≠ [] ∧ p.getLast? ≠ some slash

/-- Component-wise path extension: q equals p, or q lies strictly below the
directory named by p. -/
def pfx (p q : List Nat) : Prop := p = q ∨ (p ++ [slash]) <+: q

theorem pfx_refl (p : List Nat) : pfx p p := Or.inl rfl

theorem pfx_extend (p r : List Nat) : pfx p (p ++ slash :: r) :=
  Or.inr ⟨r, by simp⟩

theorem pfx_cancel {a x y : List Nat} :
    pfx (a ++ slash :: x) (a ++ slash :: y) ↔ pfx x y := by
  constructor
  · rintro (h | h)
    · left
      have h2 := List.append_cancel_left h
      injection h2
    · right
      rw [show (a ++ slash :: x) ++ [slash] = (a ++ [slash]) ++ (x ++ [slash]) by simp,
          show a ++ slash :: y = (a ++ [slash]) ++ y by simp,
          List.prefix_append_right_inj] at h
      exact h
  · rintro (h | h)
    · left; rw [h]
    · right
      rw [show (a ++ slash :: x) ++ [slash] = (a ++ [slash]) ++ (x ++ [slash]) by simp,
          show a ++ slash :: y = (a ++ [slash]) ++ y by simp,
          List.prefix_append_right_inj]
      exact h

theorem validLast_rest {p a r : List Nat} (hs : splitSlash p = some (a, r))
    (hv : validLast p) : validLast r := by
  obtain ⟨hp, hns⟩ := splitSlash_eq_some hs
  subst hp
  obtain ⟨hne, hlast⟩ := hv
  have hr : r ≠ [] := by
    intro hr0
    subst hr0
    exact hlast (List.getLast?_concat _)
  refine ⟨hr, ?_⟩
  intro hl
  apply hlast
  rw [List.getLast?_append]
  have h3 : (slash :: r).getLast? = some slash := by
    rw [show slash :: r = [slash] ++ r from rfl, List.getLast?_append, hl]
    rfl
  rw [h3]
  rfl

/-- Structural invariant of a sibling list built by prefix-free insertions:
slash-free pairwise-distinct names, file nodes are leaves, directory nodes
have at least one file leaf below them, and the same holds recursively. -/
def OKL : List tree → Prop
  | [] => True
  | tree.mk nm d _ _ _ sub :: cs =>
    slash ∉ nm ∧ (d = false → sub = []) ∧ (d = true → contentsL sub ≠ []) ∧
    OKL sub ∧ (∀ x ∈ cs, x.name ≠ nm) ∧ OKL cs
termination_by l => sizeOf l
decreasing_by
  all_goals simp
  all_goals omega

@[simp] theorem OKL_nil : OKL [] := by rw [OKL]; trivial

theorem OKL_cons (nm : List Nat) (d : Bool) (o s : Int) (n : Nat)
    (sub cs : List tree) :
    OKL (tree.mk nm d o s n sub :: cs) ↔
      slash ∉ nm ∧ (d = false → sub = []) ∧ (d = true → contentsL sub ≠ []) ∧
      OKL sub ∧ (∀ x ∈ cs, x.name ≠ nm) ∧ OKL cs := by
  rw [OKL]

theorem OKL_mem {l : List tree} (hok : OKL l) {c : tree} (hc : c ∈ l) :
    slash ∉ c.name ∧ (c.is_dir = false → c.sub = []) ∧
    (c.is_dir = true → contentsL c.sub ≠ []) ∧ OKL c.sub := by
  induction l with
  | nil => cases hc
  | cons x cs ih =>
    cases x with
    | mk nm d o s n sub =>
      rw [OKL_cons] at hok
      rcases List.mem_cons.mp hc with hh | hh
      · subst hh
        exact ⟨hok.1, hok.2.1, hok.2.2.1, hok.2.2.2.1⟩
      · exact ih hok.2.2.2.2.2 hh

theorem OKL_tail {x : tree} {cs : List tree} (hok : OKL (x :: cs)) : OKL cs := by
  cases x with
  | mk nm d o s n sub => exact ((OKL_cons ..).mp hok).2.2.2.2.2

theorem contentsL_mem_file {l : List tree} {c : tree} (hc : c ∈ l)
    (hd : c.is_dir = false) : (c.name, c.offset, c.size) ∈ contentsL l := by
  induction l with
  | nil => cases hc
  | cons x cs ih =>
    cases x with
    | mk nm d o s n sub =>
      rw [contentsL_cons]
      rcases List.mem_cons.mp hc with hh | hh
      · subst hh
        simp only [tree_is_dir_mk] at hd
        subst hd
        simp
      · exact List.mem_append_right _ (ih hh)

theorem contentsL_mem_dir {l : List tree} {c : tree} (hc : c ∈ l)
    (hd : c.is_dir = true) {e : List Nat × Int × Int} (he : e ∈ contentsL c.sub) :
    (c.name ++ slash :: e.1, e.2.1, e.2.2) ∈ contentsL l := by
  induction l with
  | nil => cases hc
  | cons x cs ih =>
    cases x with
    | mk nm d o s n sub =>
      rw [contentsL_cons]
      rcases List.mem_cons.mp hc with hh | hh
      · subst hh
        simp only [tree_is_dir_mk] at hd
        subst hd
        apply List.mem_append_left
        simp only [if_true]
        exact List.mem_map.mpr ⟨e, he, rfl⟩
      · exact List.mem_append_right _ (ih hh)

/-- Every entry of the contents starts with the name of one of the siblings. -/
theorem contentsL_firstComp {l : List tree} (hok : OKL l)
    {e : List Nat × Int × Int} (he : e ∈ contentsL l) :
    ∃ c ∈ l, firstComp e.1 = c.name := by
  induction l with
  | nil => simp at he
  | cons x cs ih =>
    cases x with
    | mk nm d o s n sub =>
      rw [OKL_cons] at hok
      rw [contentsL_cons] at he
      rcases List.mem_append.mp he with hh | hh
      · refine ⟨tree.mk nm d o s n sub, List.mem_cons_self .., ?_⟩
        by_cases hdd : d
        · subst hdd
          simp only [if_true] at hh
          obtain ⟨x, hx, hxe⟩ := List.mem_map.mp hh
          rw [← hxe]
          exact firstComp_of_some (splitSlash_append hok.1)
        · simp only [Bool.not_eq_true] at hdd
          subst hdd
          simp at hh
          subst hh
          exact firstComp_of_none (splitSlash_of_not_mem hok.1)
      · obtain ⟨c, hc, hcc⟩ := ih hok.2.2.2.2.2 hh
        exact ⟨c, List.mem_cons_of_mem _ hc, hcc⟩

theorem OKL_set {l : List tree} : ∀ {i : Nat} (hi : i < l.length) {c' : tree},
    OKL l → c'.name = l[i].name →
    (c'.is_dir = false → c'.sub = []) → (c'.is_dir = true → contentsL c'.sub ≠ []) →
    OKL c'.sub → OKL (l.set i c') := by
  induction l with
  | nil => intro i hi; simp at hi
  | cons y cs ih =>
    intro i hi c' hok hname hfile hdir hsub
    cases i with
    | zero =>
      simp only [List.getElem_cons_zero] at hname
      rw [List.set_cons_zero]
      cases y with
      | mk nm d o s n sub =>
        rw [OKL_cons] at hok
        cases c' with
        | mk nm2 d2 o2 s2 n2 sub2 =>
          simp only [tree_name_mk] at hname
          subst hname
          rw [OKL_cons]
          simp only [tree_is_dir_mk, tree_sub_mk] at hfile hdir hsub
          exact ⟨hok.1, hfile, hdir, hsub, hok.2.2.2.2.1, hok.2.2.2.2.2⟩
    | succ i =>
      simp only [List.getElem_cons_succ] at hname
      rw [List.set_cons_succ]
      cases y with
      | mk nm d o s n sub =>
        rw [OKL_cons] at hok ⊢
        refine ⟨hok.1, hok.2.1, hok.2.2.1, hok.2.2.2.1, ?_, ?_⟩
        · intro x hx
          rcases List.mem_or_eq_of_mem_set hx with hmem | heq
          · exact hok.2.2.2.2.1 x hmem
          · subst heq
            rw [hname]
            have hi2 : i < cs.length := by simpa using hi
            exact hok.2.2.2.2.1 _ (List.getElem_mem _)
        · exact ih (by simpa using hi) hok.2.2.2.2.2 hname hfile hdir hsub

theorem contentsL_set_perm {l : List tree} : ∀ {i : Nat} (hi : i < l.length) {c' : tree}
    {x : List Nat × Int × Int},
    c'.name = l[i].name → c'.is_dir = true → l[i].is_dir = true →
    List.Perm (contentsL c'.sub) (x :: contentsL l[i].sub) →
    List.Perm (contentsL (l.set i c'))
      ((l[i].name ++ slash :: x.1, x.2.1, x.2.2) :: contentsL l) := by
  induction l with
  | nil => intro i hi; simp at hi
  | cons y cs ih =>
    intro i hi c' x hname hdir2 hdir1 hperm
    cases i with
    | zero =>
      simp only [List.getElem_cons_zero] at hname hdir1 hperm ⊢
      rw [List.set_cons_zero]
      cases y with
      | mk nm d o s n sub =>
        cases c' with
        | mk nm2 d2 o2 s2 n2 sub2 =>
          simp only [tree_name_mk, tree_is_dir_mk, tree_sub_mk] at hname hdir1 hdir2 hperm ⊢
          subst hname
          subst hdir1
          subst hdir2
          rw [contentsL_cons, contentsL_cons]
          simp only [if_true]
          have h1 := (List.Perm.map
            (fun e => (nm2 ++ slash :: e.1, e.2.1, e.2.2)) hperm).append_right (contentsL cs)
          simpa using h1
    | succ i =>
      simp only [List.getElem_cons_succ] at hname hdir1 hperm ⊢
      rw [List.set_cons_succ]
      cases y with
      | mk nm d o s n sub =>
        rw [contentsL_cons, contentsL_cons]
        have hi2 : i < cs.length := by simpa using hi
        have h2 := ih hi2 hname hdir2 hdir1 hperm
        have h3 := List.Perm.append_left
          (if d then (contentsL sub).map (fun e => (nm ++ slash :: e.1, e.2.1, e.2.2))
           else [(nm, o, s)]) h2
        exact h3.trans List.perm_middle

/-- Inserting a prefix-free valid path into a node whose children satisfy the
invariant yields children that again satisfy it, with exactly the new entry
added to the contents. -/
theorem insert_ok : ∀ (k : Nat) (path : List Nat), path.length ≤ k →
    ∀ (nm : List Nat) (d : Bool) (o s : Int) (n : Nat) (sub : List tree) (off sz : Int),
    OKL sub → validLast path →
    (∀ e ∈ contentsL sub, ¬ pfx path e.1 ∧ ¬ pfx e.1 path) →
    ∃ n2 sub2, tree_insert (tree.mk nm d o s n sub) path off sz = tree.mk nm d o s n2 sub2 ∧
      OKL sub2 ∧ List.Perm (contentsL sub2) ((path, off, sz) :: contentsL sub) := by
  intro k
  induction k with
  | zero =>
    intro path hlen nm d o s n sub off sz hok hval hpf
    exact absurd (List.length_eq_zero.mp (Nat.le_zero.mp hlen)) hval.1
  | succ k ih =>
    intro path hlen nm d o s n sub off sz hok hval hpf
    cases hsp : splitSlash path with
    | none =>
      have hne := hval.1
      have hns : slash ∉ path := splitSlash_eq_none hsp
      rw [tree_insert_file hne hsp]
      refine ⟨n, _, rfl, ?_, ?_⟩
      · rw [OKL_cons]
        refine ⟨hns, fun _ => rfl, by simp, OKL_nil, ?_, hok⟩
        intro x hx hxname
        by_cases hxd : x.is_dir
        · obtain ⟨hxn, hxf, hxdirne, hxok⟩ := OKL_mem hok hx
          obtain ⟨e, he⟩ := List.exists_mem_of_ne_nil _ (hxdirne hxd)
          have hmem := contentsL_mem_dir hx hxd he
          rw [hxname] at hmem
          exact (hpf _ hmem).1 (pfx_extend path e.1)
        · have hxd2 : x.is_dir = false := by simpa using hxd
          have hmem := contentsL_mem_file hx hxd2
          rw [hxname] at hmem
          exact (hpf _ hmem).1 (pfx_refl path)
      · rw [contentsL_cons]
        simp
    | some pr =>
      obtain ⟨comp, rest⟩ := pr
      obtain ⟨hpath, hcomp⟩ := splitSlash_eq_some hsp
      have hvrest := validLast_rest hsp hval
      have hrlen : rest.length ≤ k := by
        have := splitSlash_length hsp
        omega
      by_cases hi : sub.findIdx (fun c => c.name == comp) < sub.length
      · -- a child with the right name exists: descend into it
        have hcname : sub[sub.findIdx (fun c => c.name == comp)].name = comp := by
          have := @List.findIdx_getElem _ (fun c => c.name == comp) sub hi
          simpa using this
        have hcmem : sub[sub.findIdx (fun c => c.name == comp)] ∈ sub :=
          List.getElem_mem _
        have hcdir : sub[sub.findIdx (fun c => c.name == comp)].is_dir = true := by
          by_contra hcd
          have hcd2 : sub[sub.findIdx (fun c => c.name == comp)].is_dir = false := by
            simpa using hcd
          have hmem := contentsL_mem_file hcmem hcd2
          rw [hcname] at hmem
          have := (hpf _ hmem).2
          rw [hpath] at this
          exact this (pfx_extend comp rest)
        obtain ⟨hcns, hcfile, hcdirne, hcok⟩ := OKL_mem hok hcmem
        have hpf2 : ∀ e ∈ contentsL sub[sub.findIdx (fun c => c.name == comp)].sub,
            ¬ pfx rest e.1 ∧ ¬ pfx e.1 rest := by
          intro e he
          have hmem := contentsL_mem_dir hcmem hcdir he
          rw [hcname] at hmem
          obtain ⟨h1, h2⟩ := hpf _ hmem
          rw [hpath] at h1 h2
          exact ⟨fun hc => h1 (pfx_cancel.mpr hc), fun hc => h2 (pfx_cancel.mpr hc)⟩
        obtain ⟨cnm, cd, co, cs0, cn, csub, hc⟩ : ∃ cnm cd co cs0 cn csub,
            sub[sub.findIdx (fun c => c.name == comp)] = tree.mk cnm cd co cs0 cn csub := by
          cases hcc : sub[sub.findIdx (fun c => c.name == comp)] with
          | mk a b c2 d2 e2 f2 => exact ⟨a, b, c2, d2, e2, f2, rfl⟩
        have hcnm : cnm = comp := by rw [hc] at hcname; simpa using hcname
        have hcd : cd = true := by rw [hc] at hcdir; simpa using hcdir
        have hcok2 : OKL csub := by rw [hc] at hcok; simpa using hcok
        have hpf3 : ∀ e ∈ contentsL csub, ¬ pfx rest e.1 ∧ ¬ pfx e.1 rest := by
          intro e he
          apply hpf2
          rw [hc]
          simpa using he
        obtain ⟨n2, sub2, heq, hok2, hperm2⟩ :=
          ih rest hrlen cnm cd co cs0 cn csub off sz hcok2 hvrest hpf3
        rw [tree_insert_descend hsp nm d o s n rfl hi off sz]
        refine ⟨n, _, rfl, ?_, ?_⟩
        · apply OKL_set hi hok
          · rw [hc, heq]
            simp
          · rw [hc, heq]
            simp only [tree_is_dir_mk, tree_sub_mk]
            intro hf
            rw [hcd] at hf
            cases hf
          · rw [hc, heq]
            simp only [tree_is_dir_mk, tree_sub_mk]
            intro _
            intro hnil
            have := hperm2.length_eq
            rw [hnil] at this
            simp at this
          · rw [hc, heq]
            simpa using hok2
        · have harg1 : (tree_insert sub[sub.findIdx (fun c => c.name == comp)] rest off sz).name
              = sub[sub.findIdx (fun c => c.name == comp)].name := by
            rw [hc, heq]
            simp
          have harg2 : (tree_insert sub[sub.findIdx (fun c => c.name == comp)] rest off sz).is_dir
              = true := by
            rw [hc, heq]
            simp [hcd]
          have harg3 : List.Perm
              (contentsL (tree_insert sub[sub.findIdx (fun c => c.name == comp)] rest off sz).sub)
              ((rest, off, sz) :: contentsL sub[sub.findIdx (fun c => c.name == comp)].sub) := by
            rw [hc, heq]
            simpa using hperm2
          have hx := contentsL_set_perm hi harg1 harg2 hcdir harg3
          have hentry : (sub[sub.findIdx (fun c => c.name == comp)].name
              ++ slash :: rest, off, sz) = (path, off, sz) := by
            rw [hcname, ← hpath]
          rw [hentry] at hx
          exact hx
      · -- no child with the right name: create a fresh directory child
        have hnone : ∀ c ∈ sub, c.name ≠ comp := by
          intro c hcmem hcname
          apply hi
          rw [List.findIdx_lt_length]
          exact ⟨c, hcmem, by simp [hcname]⟩
        obtain ⟨n2, sub2, heq, hok2, hperm2⟩ :=
          ih rest hrlen comp true 0 0 0 [] off sz OKL_nil hvrest (by simp)
        rw [tree_insert_create hsp nm d o s n hnone off sz, heq]
        refine ⟨n + 1, _, rfl, ?_, ?_⟩
        · rw [OKL_cons]
          refine ⟨hcomp, ?_, ?_, hok2, hnone, hok⟩
          · intro hf
            cases hf
          · intro _
            intro hnil
            have := hperm2.length_eq
            rw [hnil] at this
            simp at this
        · rw [contentsL_cons]
          simp only [if_true]
          have h1 := (List.Perm.map
            (fun e => (comp ++ slash :: e.1, e.2.1, e.2.2)) hperm2).append_right (contentsL sub)
          simp only [contentsL_nil, List.map_cons, List.map_nil] at h1
          rw [← hpath] at h1
          simpa using h1

/-- Lookup correctness: under the invariant, the child scan finds every entry
of the contents and returns a file leaf carrying exactly its offset and size. -/
theorem find_ok : ∀ (k : Nat) (q : List Nat), q.length ≤ k → validLast q →
    ∀ (l : List tree), OKL l → ∀ off sz, (q, off, sz) ∈ contentsL l →
    ∃ nd, tree_find_list l q = some nd ∧
      nd.is_dir = false ∧ nd.offset = off ∧ nd.size = sz := by
  intro k
  induction k with
  | zero =>
    intro q hlen hval
    exact absurd (List.length_eq_zero.mp (Nat.le_zero.mp hlen)) hval.1
  | succ k ih =>
    intro q hlen hval l
    induction l with
    | nil =>
      intro _ off sz hmem
      simp at hmem
    | cons y cs ihl =>
      intro hok off sz hmem
      cases y with
      | mk nm d o s n sub =>
        rw [OKL_cons] at hok
        obtain ⟨hns, hfile, hdirne, hsubok, hdist, hcsok⟩ := hok
        rw [contentsL_cons] at hmem
        rcases List.mem_append.mp hmem with hblk | hcs
        · by_cases hdd : d = true
          · subst hdd
            simp only [if_true] at hblk
            obtain ⟨x, hx, hxe⟩ := List.mem_map.mp hblk
            simp only [Prod.ext_iff] at hxe
            obtain ⟨h1, h2, h3⟩ := hxe
            have hq : q = nm ++ slash :: x.1 := h1.symm
            have hqs : splitSlash q = some (nm, x.1) := by
              rw [hq]
              exact splitSlash_append hns
            have hvx := validLast_rest hqs hval
            have hxlen : x.1.length ≤ k := by
              have := splitSlash_length hqs
              omega
            have hxmem : (x.1, off, sz) ∈ contentsL sub := by
              have hxx : (x.1, off, sz) = x := by
                rw [← h2, ← h3]
              rw [hxx]
              exact hx
            obtain ⟨nd, hnd, hp1, hp2, hp3⟩ := ih x.1 hxlen hvx sub hsubok off sz hxmem
            have hfe : tree_find_entry (tree.mk nm true o s n sub) q
                = tree_find_list sub x.1 := by
              rw [hq]
              have := @tree_find_entry_descend (tree.mk nm true o s n sub)
                x.1 (by simpa using hns) hvx.1
              simpa using this
            refine ⟨nd, ?_, hp1, hp2, hp3⟩
            rw [tree_find_list_cons_some (hfe.trans hnd)]
          · have hdd2 : d = false := by simpa using hdd
            subst hdd2
            simp only [Bool.false_eq_true, if_false, List.mem_singleton] at hblk
            simp only [Prod.ext_iff] at hblk
            obtain ⟨h1, h2, h3⟩ := hblk
            have hself : tree_find_entry (tree.mk nm false o s n sub) q
                = some (tree.mk nm false o s n sub) := by
              have hq : q = (tree.mk nm false o s n sub).name := by simpa using h1
              rw [hq]
              exact tree_find_entry_self _
            refine ⟨tree.mk nm false o s n sub, ?_, by simp, by simp [← h2], by simp [← h3]⟩
            rw [tree_find_list_cons_some hself]
        · obtain ⟨c, hcmem, hcc⟩ := contentsL_firstComp (e := (q, off, sz)) hcsok hcs
          have hne2 : (tree.mk nm d o s n sub).name ≠ firstComp q := by
            simp only [tree_name_mk]
            rw [hcc]
            exact fun h => (hdist c hcmem) h.symm
          have hnone := @tree_find_entry_none (tree.mk nm d o s n sub)
            q (by simpa using hns) hne2
          rw [tree_find_list_cons_none hnone]
          exact ihl hcsok off sz hcs

/-- A sequence of tree_insert calls starting from tree_empty, exactly how
xbfs_init builds the tree (each discovered file is one tree_insert). -/
def buildTree (L : List (List Nat × Int × Int)) : tree :=
  L.foldl (fun t e => tree_insert t e.1 e.2.1 e.2.2) tree_empty

/-- No two inserted paths are component-wise comparable: pairwise neither is
the other nor lies below the directory the other names (this also rules out
duplicates). -/
def pairwiseFree (L : List (List Nat × Int × Int)) : Prop :=
  List.Pairwise (fun a b => ¬ pfx a.1 b.1 ∧ ¬ pfx b.1 a.1) L

theorem build_ok : ∀ (L : List (List Nat × Int × Int)) (nm : List Nat) (d : Bool)
    (o s : Int) (n : Nat) (sub : List tree),
    OKL sub → (∀ e ∈ L, validLast e.1) → pairwiseFree L →
    (∀ e ∈ contentsL sub, ∀ p ∈ L, ¬ pfx p.1 e.1 ∧ ¬ pfx e.1 p.1) →
    ∃ n2 sub2,
      L.foldl (fun t e => tree_insert t e.1 e.2.1 e.2.2) (tree.mk nm d o s n sub)
        = tree.mk nm d o s n2 sub2 ∧
      OKL sub2 ∧ List.Perm (contentsL sub2) (L ++ contentsL sub) := by
  intro L
  induction L with
  | nil =>
    intro nm d o s n sub hok _ _ _
    exact ⟨n, sub, rfl, hok, by simp⟩
  | cons e L ihL =>
    intro nm d o s n sub hok hval hpw hpf
    rw [List.foldl_cons]
    obtain ⟨n1, sub1, heq1, hok1, hperm1⟩ :=
      insert_ok e.1.length e.1 le_rfl nm d o s n sub e.2.1 e.2.2 hok
        (hval e (List.mem_cons_self ..))
        (fun x hx => hpf x hx e (List.mem_cons_self ..))
    rw [heq1]
    rw [pairwiseFree, List.pairwise_cons] at hpw
    obtain ⟨hrel, hpw2⟩ := hpw
    have hside : ∀ x ∈ contentsL sub1, ∀ p ∈ L, ¬ pfx p.1 x.1 ∧ ¬ pfx x.1 p.1 := by
      intro x hx p hp
      have hx2 := hperm1.mem_iff.mp hx
      rcases List.mem_cons.mp hx2 with hxe | hxs
      · subst hxe
        exact ⟨(hrel p hp).2, (hrel p hp).1⟩
      · exact hpf x hxs p (List.mem_cons_of_mem _ hp)
    obtain ⟨n2, sub2, heq2, hok2, hperm2⟩ := ihL nm d o s n1 sub1 hok1
      (fun x hx => hval x (List.mem_cons_of_mem _ hx)) hpw2 hside
    refine ⟨n2, sub2, heq2, hok2, ?_⟩
    have hx := hperm2.trans (List.Perm.append_left L hperm1)
    exact hx.trans List.perm_middle

/-- At the root (empty name) a query starting with a slash reduces to the
child scan with the remainder, per the strncmp and slash tests of
tree_find_entry. -/
theorem tree_find_entry_root {n : Nat} {sub : List tree} {q : List Nat}
    (hq : q ≠ []) (d : Bool) (o s : Int) :
    tree_find_entry (tree.mk [] d o s n sub) (slash :: q) = tree_find_list sub q := by
  have := @tree_find_entry_descend (tree.mk [] d o s n sub) q
    (by simp) hq
  simpa using this

/-! ### Claim C1 -/

/-- C1 counterexample: the claim fails as stated.  The three paths a/b, a and
a/b/c (bytes 97, 98, 99, slash 47) are pairwise distinct; a/b is inserted with
offset 1 and size 10, yet after all three insertions find_entry on /a/b
returns a directory node (is_dir true, offset 0, size 0) instead of that leaf:
the insertion of a/b/c reused the file leaf a as a container, and the
directory node b created under it shadows the real leaf during the scan. -/
theorem c1_counterexample :
    (([97, 47, 98] : List Nat) ≠ [97] ∧ ([97, 47, 98] : List Nat) ≠ [97, 47, 98, 47, 99] ∧
      ([97] : List Nat) ≠ [97, 47, 98, 47, 99]) ∧
    tree_find_entry
      (buildTree [([97, 47, 98], 1, 10), ([97], 2, 20), ([97, 47, 98, 47, 99], 3, 30)])
      [47, 97, 47, 98]
      = some (tree.mk [98] true 0 0 0 [tree.mk [99] false 3 30 0 []]) ∧
    (tree.mk [98] true 0 0 0 [tree.mk [99] false 3 30 0 []]).is_dir = true := by
  refine ⟨⟨by decide, by decide, by decide⟩, ?_, rfl⟩
  simp [buildTree, tree_empty, tree_insert, splitSlash, slash, List.findIdx,
    List.findIdx.go, tree.name, tree_find_entry, tree_find_list, tree.sub,
    List.isPrefixOf]

/-- C1 (amended): for every path P inserted into the tree with a given offset
and size, a subsequent find_entry on slash followed by P returns a leaf node
(is_dir false) carrying exactly that offset and size, provided the inserted
paths are pairwise component-wise incomparable (no path equals another and no
path lies below the directory another names) and every path is nonempty with a
nonempty final component.  Distinctness alone is not enough; see the
counterexample. -/
theorem c1_find_inserted (L : List (List Nat × Int × Int)) (P : List Nat)
    (off sz : Int) (hmem : (P, off, sz) ∈ L)
    (hval : ∀ e ∈ L, validLast e.1) (hfree : pairwiseFree L) :
    ∃ nd, tree_find_entry (buildTree L) (slash :: P) = some nd ∧
      nd.is_dir = false ∧ nd.offset = off ∧ nd.size = sz := by
  obtain ⟨n2, sub2, heq, hok, hperm⟩ :=
    build_ok L [] true 0 0 0 [] OKL_nil hval hfree (by simp)
  have hPv : validLast P := hval _ hmem
  rw [buildTree, tree_empty, heq, tree_find_entry_root hPv.1]
  apply find_ok P.length P le_rfl hPv sub2 hok off sz
  apply hperm.mem_iff.mpr
  simpa using hmem

/-- Witness for C1: a single inserted path (byte 97, offset 5, size 7) is found
again with exactly those values. -/
theorem c1_witness :
    ((([97], 5, 7) : List Nat × Int × Int) ∈ [(([97], 5, 7) : List Nat × Int × Int)]) ∧
    (∀ e ∈ [(([97], 5, 7) : List Nat × Int × Int)], validLast e.1) ∧
    pairwiseFree [(([97], 5, 7) : List Nat × Int × Int)] ∧
    ∃ nd, tree_find_entry (buildTree [([97], 5, 7)]) (slash :: [97]) = some nd ∧
      nd.is_dir = false ∧ nd.offset = 5 ∧ nd.size = 7 := by
  refine ⟨by simp, ?_, ?_, ?_⟩
  · intro e he
    simp only [List.mem_singleton] at he
    subst he
    exact ⟨by simp, by simp [validLast, slash]⟩
  · simp [pairwiseFree]
  · exact c1_find_inserted [([97], 5, 7)] [97] 5 7 (by simp)
      (by intro e he; simp only [List.mem_singleton] at he; subst he
          exact ⟨by simp, by simp [validLast, slash]⟩)
      (by simp [pairwiseFree])

/-! ### Decomposition helpers for the child scan, and the keep-last lemma -/

theorem findIdx_decomp {α : Type} {p : α → Bool} {pre : List α} {c : α} (post : List α)
    (hpre : ∀ x ∈ pre, p x = false) (hc : p c = true) :
    (pre ++ c :: post).findIdx p = pre.length := by
  induction pre with
  | nil => simp [List.findIdx_cons, hc]
  | cons y ys ih =>
    rw [List.cons_append, List.findIdx_cons, hpre y (List.mem_cons_self ..)]
    simp only [cond_false, List.length_cons]
    rw [ih (fun x hx => hpre x (List.mem_cons_of_mem _ hx))]

theorem set_decomp {α : Type} (pre : List α) (c : α) (post : List α) (c' : α) :
    (pre ++ c :: post).set pre.length c' = pre ++ c' :: post := by
  induction pre with
  | nil => simp
  | cons y ys ih => simp [ih]

theorem getElem_decomp {α : Type} (pre : List α) (c : α) (post : List α)
    (h : pre.length < (pre ++ c :: post).length) :
    (pre ++ c :: post)[pre.length] = c := by
  induction pre with
  | nil => simp
  | cons y ys ih => simpa using ih (by simpa using h)

/-- Deep slash-freedom of all names in a sibling forest.  Holds for every tree
the parser can build, because node names always come from split components. -/
def namesOK : List tree → Prop
  | [] => True
  | tree.mk nm _ _ _ _ sub :: cs => slash ∉ nm ∧ namesOK sub ∧ namesOK cs
termination_by l => sizeOf l
decreasing_by
  all_goals simp
  all_goals omega

@[simp] theorem namesOK_nil : namesOK [] := by rw [namesOK]; trivial

theorem namesOK_cons (nm : List Nat) (d : Bool) (o s : Int) (n : Nat)
    (sub cs : List tree) :
    namesOK (tree.mk nm d o s n sub :: cs) ↔ slash ∉ nm ∧ namesOK sub ∧ namesOK cs := by
  rw [namesOK]

theorem namesOK_append {l1 l2 : List tree} :
    namesOK (l1 ++ l2) ↔ namesOK l1 ∧ namesOK l2 := by
  induction l1 with
  | nil => simp
  | cons y ys ih =>
    cases y with
    | mk nm d o s n sub =>
      rw [List.cons_append, namesOK_cons, namesOK_cons, ih]
      tauto

theorem namesOK_mem {l : List tree} (h : namesOK l) {c : tree} (hc : c ∈ l) :
    slash ∉ c.name ∧ namesOK c.sub := by
  induction l with
  | nil => cases hc
  | cons y ys ih =>
    cases y with
    | mk nm d o s n sub =>
      rw [namesOK_cons] at h
      rcases List.mem_cons.mp hc with hh | hh
      · subst hh
        exact ⟨h.1, h.2.1⟩
      · exact ih h.2.2 hh

theorem find_list_append_none {l1 l2 : List tree} {q : List Nat}
    (h : ∀ x ∈ l1, tree_find_entry x q = none) :
    tree_find_list (l1 ++ l2) q = tree_find_list l2 q := by
  induction l1 with
  | nil => rfl
  | cons y ys ih =>
    rw [List.cons_append, tree_find_list_cons_none (h y (List.mem_cons_self ..))]
    exact ih (fun x hx => h x (List.mem_cons_of_mem _ hx))

theorem findIdx_split {l : List tree} {comp : List Nat}
    (hi : l.findIdx (fun c => c.name == comp) < l.length) :
    ∃ pre c post, l = pre ++ c :: post ∧
      pre.length = l.findIdx (fun c => c.name == comp) ∧
      c.name = comp ∧ ∀ x ∈ pre, x.name ≠ comp := by
  induction l with
  | nil => simp at hi
  | cons y ys ih =>
    by_cases hy : (y.name == comp) = true
    · refine ⟨[], y, ys, rfl, ?_, by simpa using hy, by simp⟩
      rw [List.findIdx_cons, hy]
      rfl
    · have hy2 : (y.name == comp) = false := by simpa using hy
      rw [List.findIdx_cons, hy2] at hi
      simp only [cond_false, List.length_cons] at hi
      have hi2 : ys.findIdx (fun c => c.name == comp) < ys.length := by omega
      obtain ⟨pre, c, post, h1, h2, h3, h4⟩ := ih hi2
      refine ⟨y :: pre, c, post, by rw [h1]; rfl, ?_, h3, ?_⟩
      · rw [List.findIdx_cons, hy2]
        simp only [cond_false, List.length_cons]
        rw [h2]
      · intro x hx
        rcases List.mem_cons.mp hx with hh | hh
        · subst hh
          simpa using hy2
        · exact h4 x hh

/-- The descend branch of tree_insert, phrased on a decomposition of the
sibling list around the first child whose name matches the leading
component. -/
theorem tree_insert_descend2 {path comp rest : List Nat}
    (hs : splitSlash path = some (comp, rest)) (nm : List Nat) (d : Bool)
    (o s : Int) (n : Nat) (pre : List tree) (c : tree) (post : List tree)
    (hpre : ∀ x ∈ pre, x.name ≠ comp) (hc : c.name = comp) (off sz : Int) :
    tree_insert (tree.mk nm d o s n (pre ++ c :: post)) path off sz =
      tree.mk nm d o s n (pre ++ tree_insert c rest off sz :: post) := by
  have hfind : (pre ++ c :: post).findIdx (fun x => x.name == comp) = pre.length :=
    findIdx_decomp post (fun x hx => by simpa using hpre x hx) (by simpa using hc)
  have hi : pre.length < (pre ++ c :: post).length := by simp
  have h2 := tree_insert_descend hs nm d o s n hfind hi off sz
  rw [h2, getElem_decomp pre c post hi, set_decomp]

/-- Inserting any valid path into children with deeply slash-free names yields
a tree in which the freshly inserted leaf is what the child scan returns for
that very path, regardless of anything already in the tree (in particular any
older leaf with the same path is shadowed); names stay slash-free. -/
theorem insert_keeps_last : ∀ (k : Nat) (path : List Nat), path.length ≤ k →
    validLast path →
    ∀ (nm : List Nat) (d : Bool) (o s : Int) (n : Nat) (sub : List tree) (off sz : Int),
    namesOK sub →
    ∃ n2 sub2, tree_insert (tree.mk nm d o s n sub) path off sz = tree.mk nm d o s n2 sub2 ∧
      namesOK sub2 ∧
      ∃ nd, tree_find_list sub2 path = some nd ∧
        nd.is_dir = false ∧ nd.offset = off ∧ nd.size = sz := by
  intro k
  induction k with
  | zero =>
    intro path hlen hval
    exact absurd (List.length_eq_zero.mp (Nat.le_zero.mp hlen)) hval.1
  | succ k ih =>
    intro path hlen hval nm d o s n sub off sz hnames
    cases hsp : splitSlash path with
    | none =>
      have hns : slash ∉ path := splitSlash_eq_none hsp
      rw [tree_insert_file hval.1 hsp]
      refine ⟨n, _, rfl, ?_, ?_⟩
      · rw [namesOK_cons]
        exact ⟨hns, namesOK_nil, hnames⟩
      · refine ⟨tree.mk path false off sz 0 [], ?_, rfl, rfl, rfl⟩
        have hself := tree_find_entry_self (tree.mk path false off sz 0 [])
        simp only [tree_name_mk] at hself
        rw [tree_find_list_cons_some hself]
    | some pr =>
      obtain ⟨comp, rest⟩ := pr
      obtain ⟨hpath, hcomp⟩ := splitSlash_eq_some hsp
      have hvrest := validLast_rest hsp hval
      have hrlen : rest.length ≤ k := by
        have := splitSlash_length hsp
        omega
      by_cases hi : sub.findIdx (fun c => c.name == comp) < sub.length
      · obtain ⟨pre, c, post, hdec, hplen, hcname, hprenames⟩ := findIdx_split hi
        subst hdec
        rw [tree_insert_descend2 hsp nm d o s n pre c post hprenames hcname off sz]
        cases c with
        | mk cnm cd co cs0 cn csub =>
          simp only [tree_name_mk] at hcname
          rw [namesOK_append, namesOK_cons] at hnames
          obtain ⟨hnpre, hncomp, hncsub, hnpost⟩ := hnames
          obtain ⟨n2, sub2, heq2, hnames2, nd, hnd, p1, p2, p3⟩ :=
            ih rest hrlen hvrest cnm cd co cs0 cn csub off sz hncsub
          rw [heq2]
          refine ⟨n, _, rfl, ?_, nd, ?_, p1, p2, p3⟩
          · rw [namesOK_append, namesOK_cons]
            exact ⟨hnpre, hncomp, hnames2, hnpost⟩
          · rw [find_list_append_none ?hpre]
            case hpre =>
              intro x hx
              exact tree_find_entry_none (namesOK_mem hnpre hx).1
                (fun hxc => hprenames x hx (hxc.trans (firstComp_of_some hsp)))
            have hfe : tree_find_entry (tree.mk cnm cd co cs0 n2 sub2) path
                = tree_find_list sub2 rest := by
              rw [hpath, ← hcname]
              have := @tree_find_entry_descend (tree.mk cnm cd co cs0 n2 sub2)
                rest (by simpa using hncomp) hvrest.1
              simpa using this
            rw [tree_find_list_cons_some (hfe.trans hnd)]
      · have hnone : ∀ c ∈ sub, c.name ≠ comp := by
          intro c hcmem hcn
          apply hi
          rw [List.findIdx_lt_length]
          exact ⟨c, hcmem, by simp [hcn]⟩
        rw [tree_insert_create hsp nm d o s n hnone off sz]
        obtain ⟨n2, sub2, heq2, hnames2, nd, hnd, p1, p2, p3⟩ :=
          ih rest hrlen hvrest comp true 0 0 0 [] off sz namesOK_nil
        rw [heq2]
        refine ⟨n + 1, _, rfl, ?_, nd, ?_, p1, p2, p3⟩
        · rw [namesOK_cons]
          exact ⟨hcomp, hnames2, hnames⟩
        · have hfe : tree_find_entry (tree.mk comp true 0 0 n2 sub2) path
              = tree_find_list sub2 rest := by
            rw [hpath]
            have := @tree_find_entry_descend (tree.mk comp true 0 0 n2 sub2)
              rest (by simpa using hcomp) hvrest.1
            simpa using this
          rw [tree_find_list_cons_some (hfe.trans hnd)]

/-- Every insertion, of any path whatsoever, keeps all names in the tree
slash-free (components never contain the separator). -/
theorem insert_namesOK : ∀ (k : Nat) (path : List Nat), path.length ≤ k →
    ∀ (nm : List Nat) (d : Bool) (o s : Int) (n : Nat) (sub : List tree) (off sz : Int),
    namesOK sub →
    ∃ n2 sub2, tree_insert (tree.mk nm d o s n sub) path off sz = tree.mk nm d o s n2 sub2 ∧
      namesOK sub2 := by
  intro k
  induction k with
  | zero =>
    intro path hlen nm d o s n sub off sz hnames
    have hp : path = [] := List.length_eq_zero.mp (Nat.le_zero.mp hlen)
    subst hp
    exact ⟨n, sub, tree_insert_nil _ off sz, hnames⟩
  | succ k ih =>
    intro path hlen nm d o s n sub off sz hnames
    by_cases hp : path = []
    · subst hp
      exact ⟨n, sub, tree_insert_nil _ off sz, hnames⟩
    cases hsp : splitSlash path with
    | none =>
      rw [tree_insert_file hp hsp]
      refine ⟨n, _, rfl, ?_⟩
      rw [namesOK_cons]
      exact ⟨splitSlash_eq_none hsp, namesOK_nil, hnames⟩
    | some pr =>
      obtain ⟨comp, rest⟩ := pr
      obtain ⟨hpath, hcomp⟩ := splitSlash_eq_some hsp
      have hrlen : rest.length ≤ k := by
        have := splitSlash_length hsp
        omega
      by_cases hi : sub.findIdx (fun c => c.name == comp) < sub.length
      · obtain ⟨pre, c, post, hdec, hplen, hcname, hprenames⟩ := findIdx_split hi
        subst hdec
        rw [tree_insert_descend2 hsp nm d o s n pre c post hprenames hcname off sz]
        cases c with
        | mk cnm cd co cs0 cn csub =>
          rw [namesOK_append, namesOK_cons] at hnames
          obtain ⟨hnpre, hncomp, hncsub, hnpost⟩ := hnames
          obtain ⟨n2, sub2, heq2, hnames2⟩ :=
            ih rest hrlen cnm cd co cs0 cn csub off sz hncsub
          rw [heq2]
          refine ⟨n, _, rfl, ?_⟩
          rw [namesOK_append, namesOK_cons]
          exact ⟨hnpre, hncomp, hnames2, hnpost⟩
      · have hnone : ∀ c ∈ sub, c.name ≠ comp := by
          intro c hcmem hcn
          apply hi
          rw [List.findIdx_lt_length]
          exact ⟨c, hcmem, by simp [hcn]⟩
        rw [tree_insert_create hsp nm d o s n hnone off sz]
        obtain ⟨n2, sub2, heq2, hnames2⟩ := ih rest hrlen comp true 0 0 0 [] off sz namesOK_nil
        rw [heq2]
        refine ⟨n + 1, _, rfl, ?_⟩
        rw [namesOK_cons]
        exact ⟨hcomp, hnames2, hnames⟩

theorem build_namesOK : ∀ (L : List (List Nat × Int × Int)) (nm : List Nat) (d : Bool)
    (o s : Int) (n : Nat) (sub : List tree), namesOK sub →
    ∃ n2 sub2,
      L.foldl (fun t e => tree_insert t e.1 e.2.1 e.2.2) (tree.mk nm d o s n sub)
        = tree.mk nm d o s n2 sub2 ∧ namesOK sub2 := by
  intro L
  induction L with
  | nil =>
    intro nm d o s n sub hnames
    exact ⟨n, sub, rfl, hnames⟩
  | cons e L ihL =>
    intro nm d o s n sub hnames
    rw [List.foldl_cons]
    obtain ⟨n1, sub1, heq1, hn1⟩ :=
      insert_namesOK e.1.length e.1 le_rfl nm d o s n sub e.2.1 e.2.2 hnames
    rw [heq1]
    exact ihL nm d o s n1 sub1 hn1

/-! ### Claim C8 -/

/-- C8 counterexample: inserting the path consisting of byte 97 twice, first
with offset 1 size 10 and then with offset 2 size 20, neither rejects the
duplicate (the sibling list grows from one to two nodes) nor keeps the first
leaf visible: find_entry returns the second leaf, offset 2 size 20. -/
theorem c8_counterexample :
    tree_find_entry (tree_insert (tree_insert tree_empty [97] 1 10) [97] 2 20) [47, 97]
      = some (tree.mk [97] false 2 20 0 []) ∧
    (tree_insert (tree_insert tree_empty [97] 1 10) [97] 2 20).sub.length = 2 ∧
    (tree_insert tree_empty [97] 1 10).sub.length = 1 ∧
    ((2 : Int) ≠ 1) := by
  refine ⟨?_, ?_, ?_, by decide⟩
  · simp [tree_empty, tree_insert, splitSlash, slash, tree_find_entry,
      tree_find_list, tree.name, tree.sub, List.isPrefixOf]
  · simp [tree_empty, tree_insert, splitSlash, slash, tree.sub]
  · simp [tree_empty, tree_insert, splitSlash, slash, tree.sub]

/-- C8 (amended): duplicate insertion is neither rejected nor keep-first: the
new leaf is prepended and shadows any older same-path leaf.  In general, after
inserting a valid path with a given offset and size into any previously built
tree, find_entry on that path returns the newly inserted values. -/
theorem c8_keeps_last (L : List (List Nat × Int × Int)) (path : List Nat)
    (off sz : Int) (hval : validLast path) :
    ∃ nd, tree_find_entry (tree_insert (buildTree L) path off sz) (slash :: path)
        = some nd ∧ nd.is_dir = false ∧ nd.offset = off ∧ nd.size = sz := by
  obtain ⟨n1, sub1, heq1, hn1⟩ := build_namesOK L [] true 0 0 0 [] namesOK_nil
  rw [buildTree, tree_empty, heq1]
  obtain ⟨n2, sub2, heq2, hn2, nd, hnd, p1, p2, p3⟩ :=
    insert_keeps_last path.length path le_rfl hval [] true 0 0 n1 sub1 off sz hn1
  rw [heq2, tree_find_entry_root hval.1]
  exact ⟨nd, hnd, p1, p2, p3⟩

/-- Witness for C8: inserting path 97 with offset 5 size 7 on top of a tree
already holding path 98 makes find_entry return the new leaf. -/
theorem c8_witness :
    validLast [97] ∧
    ∃ nd, tree_find_entry (tree_insert (buildTree [([98], 1, 1)]) [97] 5 7)
        (slash :: [97]) = some nd ∧ nd.is_dir = false ∧ nd.offset = 5 ∧ nd.size = 7 := by
  have hv : validLast [97] := ⟨by simp, by simp [validLast, slash]⟩
  exact ⟨hv, c8_keeps_last [([98], 1, 1)] [97] 5 7 hv⟩

/-! ### Claim C9 -/

/-- C9 counterexample: after inserting the file path 97 (offset 5, size 6),
inserting 97 slash 98 does not create a directory child named 97 and does not
increment the nsubdirs of the root (which stays 0): the existing FILE child 97
is reused as the container and receives the leaf 98, contradicting the claim
that only a same-named directory child is reused. -/
theorem c9_counterexample :
    tree_insert (tree_insert tree_empty [97] 5 6) [97, 47, 98] 7 8
      = tree.mk [] true 0 0 0 [tree.mk [97] false 5 6 0 [tree.mk [98] false 7 8 0 []]] ∧
    (tree_insert (tree_insert tree_empty [97] 5 6) [97, 47, 98] 7 8).nsubdirs = 0 := by
  constructor
  · simp [tree_empty, tree_insert, splitSlash, slash, List.findIdx, List.findIdx.go,
      tree.name]
  · simp [tree_empty, tree_insert, splitSlash, slash, List.findIdx, List.findIdx.go,
      tree.name, tree.nsubdirs]

/-- C9 (amended): when the path splits as a leading component and a remainder,
insertion descends into the first child bearing that component name whatever
its is_dir flag is (a same-named file child is reused as a container); only
when no child of any kind bears the name is a fresh directory child created,
prepended, and the nsubdirs of the parent incremented by exactly one. -/
theorem c9_descend_any_child {path comp rest : List Nat}
    (hs : splitSlash path = some (comp, rest)) (nm : List Nat) (d : Bool)
    (o s : Int) (n : Nat) (off sz : Int) :
    (∀ (pre : List tree) (c : tree) (post : List tree),
      (∀ x ∈ pre, x.name ≠ comp) → c.name = comp →
      tree_insert (tree.mk nm d o s n (pre ++ c :: post)) path off sz =
        tree.mk nm d o s n (pre ++ tree_insert c rest off sz :: post)) ∧
    (∀ sub : List tree, (∀ x ∈ sub, x.name ≠ comp) →
      tree_insert (tree.mk nm d o s n sub) path off sz =
        tree.mk nm d o s (n + 1) (tree_insert (tree.mk comp true 0 0 0 []) rest off sz :: sub)) :=
  ⟨fun pre c post hpre hc => tree_insert_descend2 hs nm d o s n pre c post hpre hc off sz,
   fun sub hnone => tree_insert_create hs nm d o s n hnone off sz⟩

/-- Witness for C9: concrete instances of both branches, with a FILE child
named 97 being descended into. -/
theorem c9_witness :
    splitSlash [97, 47, 98] = some ([97], [98]) ∧
    tree_insert (tree.mk [] true 0 0 0 ([] ++ tree.mk [97] false 5 6 0 [] :: [])) [97, 47, 98] 7 8
      = tree.mk [] true 0 0 0 ([] ++ tree_insert (tree.mk [97] false 5 6 0 []) [98] 7 8 :: []) ∧
    tree_insert (tree.mk [] true 0 0 3 []) [97, 47, 98] 7 8
      = tree.mk [] true 0 0 (3 + 1) (tree_insert (tree.mk [97] true 0 0 0 []) [98] 7 8 :: []) := by
  have hsp : splitSlash [97, 47, 98] = some ([97], [98]) := by decide
  refine ⟨hsp, ?_, ?_⟩
  · exact (c9_descend_any_child hsp [] true 0 0 0 7 8).1 []
      (tree.mk [97] false 5 6 0 []) [] (by simp) rfl
  · exact (c9_descend_any_child hsp [] true 0 0 3 7 8).2 [] (by simp)

/-! ### Claim C6: nsubdirs bookkeeping and leaf discipline -/

/-- Every node in the forest has nsubdirs equal to the number of its direct
children with the directory flag set. -/
def nsubOKL : List tree → Prop
  | [] => True
  | tree.mk _ _ _ _ n sub :: cs =>
    n = (sub.filter (fun c => c.is_dir)).length ∧ nsubOKL sub ∧ nsubOKL cs
termination_by l => sizeOf l
decreasing_by
  all_goals simp
  all_goals omega

@[simp] theorem nsubOKL_nil : nsubOKL [] := by rw [nsubOKL]; trivial

theorem nsubOKL_cons (nm : List Nat) (d : Bool) (o s : Int) (n : Nat)
    (sub cs : List tree) :
    nsubOKL (tree.mk nm d o s n sub :: cs) ↔
      n = (sub.filter (fun c => c.is_dir)).length ∧ nsubOKL sub ∧ nsubOKL cs := by
  rw [nsubOKL]

theorem nsubOKL_append {l1 l2 : List tree} :
    nsubOKL (l1 ++ l2) ↔ nsubOKL l1 ∧ nsubOKL l2 := by
  induction l1 with
  | nil => simp
  | cons y ys ih =>
    cases y with
    | mk nm d o s n sub =>
      rw [List.cons_append, nsubOKL_cons, nsubOKL_cons, ih]
      tauto

/-- Every non-directory node in the forest has no children. -/
def filesLeafL : List tree → Prop
  | [] => True
  | tree.mk _ d _ _ _ sub :: cs => (d = false → sub = []) ∧ filesLeafL sub ∧ filesLeafL cs
termination_by l => sizeOf l
decreasing_by
  all_goals simp
  all_goals omega

@[simp] theorem filesLeafL_nil : filesLeafL [] := by rw [filesLeafL]; trivial

theorem filesLeafL_cons (nm : List Nat) (d : Bool) (o s : Int) (n : Nat)
    (sub cs : List tree) :
    filesLeafL (tree.mk nm d o s n sub :: cs) ↔
      (d = false → sub = []) ∧ filesLeafL sub ∧ filesLeafL cs := by
  rw [filesLeafL]

theorem OKL_filesLeafL : ∀ (k : Nat) (l : List tree), sizeOf l ≤ k → OKL l →
    filesLeafL l := by
  intro k
  induction k with
  | zero =>
    intro l hl hok
    cases l with
    | nil => simp
    | cons y ys =>
      exfalso
      cases y
      simp at hl
  | succ k ihk =>
    intro l hl hok
    cases l with
    | nil => simp
    | cons y ys =>
      cases y with
      | mk nm d o s n sub =>
        rw [OKL_cons] at hok
        rw [filesLeafL_cons]
        simp only [tree.mk.sizeOf_spec, List.cons.sizeOf_spec] at hl
        refine ⟨hok.2.1, ?_, ?_⟩
        · exact ihk sub (by omega) hok.2.2.2.1
        · exact ihk ys (by omega) hok.2.2.2.2.2

/-- One insertion preserves the nsubdirs bookkeeping, for any path. -/
theorem insert_nsub : ∀ (k : Nat) (path : List Nat), path.length ≤ k →
    ∀ (nm : List Nat) (d : Bool) (o s : Int) (n : Nat) (sub : List tree) (off sz : Int),
    n = (sub.filter (fun c => c.is_dir)).length → nsubOKL sub →
    ∃ n2 sub2, tree_insert (tree.mk nm d o s n sub) path off sz = tree.mk nm d o s n2 sub2 ∧
      n2 = (sub2.filter (fun c => c.is_dir)).length ∧ nsubOKL sub2 := by
  intro k
  induction k with
  | zero =>
    intro path hlen nm d o s n sub off sz hn hsub
    have hp : path = [] := List.length_eq_zero.mp (Nat.le_zero.mp hlen)
    subst hp
    exact ⟨n, sub, tree_insert_nil _ off sz, hn, hsub⟩
  | succ k ih =>
    intro path hlen nm d o s n sub off sz hn hsub
    by_cases hp : path = []
    · subst hp
      exact ⟨n, sub, tree_insert_nil _ off sz, hn, hsub⟩
    cases hsp : splitSlash path with
    | none =>
      rw [tree_insert_file hp hsp]
      refine ⟨n, _, rfl, ?_, ?_⟩
      · simpa using hn
      · rw [nsubOKL_cons]
        exact ⟨by simp, nsubOKL_nil, hsub⟩
    | some pr =>
      obtain ⟨comp, rest⟩ := pr
      have hrlen : rest.length ≤ k := by
        have := splitSlash_length hsp
        omega
      by_cases hi : sub.findIdx (fun c => c.name == comp) < sub.length
      · obtain ⟨pre, c, post, hdec, hplen, hcname, hprenames⟩ := findIdx_split hi
        subst hdec
        rw [tree_insert_descend2 hsp nm d o s n pre c post hprenames hcname off sz]
        cases c with
        | mk cnm cd co cs0 cn csub =>
          rw [nsubOKL_append, nsubOKL_cons] at hsub
          obtain ⟨hnpre, hccount, hncsub, hnpost⟩ := hsub
          obtain ⟨n2, sub2, heq2, hcount2, hnsub2⟩ :=
            ih rest hrlen cnm cd co cs0 cn csub off sz hccount hncsub
          rw [heq2]
          refine ⟨n, _, rfl, ?_, ?_⟩
          · rw [hn]
            simp only [List.filter_append, List.length_append, List.filter_cons]
            cases cd <;> simp
          · rw [nsubOKL_append, nsubOKL_cons]
            exact ⟨hnpre, hcount2, hnsub2, hnpost⟩
      · have hnone : ∀ c ∈ sub, c.name ≠ comp := by
          intro c hcmem hcn
          apply hi
          rw [List.findIdx_lt_length]
          exact ⟨c, hcmem, by simp [hcn]⟩
        rw [tree_insert_create hsp nm d o s n hnone off sz]
        obtain ⟨n2, sub2, heq2, hcount2, hnsub2⟩ :=
          ih rest hrlen comp true 0 0 0 [] off sz (by simp) nsubOKL_nil
        rw [heq2]
        refine ⟨n + 1, _, rfl, ?_, ?_⟩
        · rw [hn]
          simp
        · rw [nsubOKL_cons]
          exact ⟨hcount2, hnsub2, hsub⟩

theorem build_nsub : ∀ (L : List (List Nat × Int × Int)) (nm : List Nat) (d : Bool)
    (o s : Int) (n : Nat) (sub : List tree),
    n = (sub.filter (fun c => c.is_dir)).length → nsubOKL sub →
    ∃ n2 sub2,
      L.foldl (fun t e => tree_insert t e.1 e.2.1 e.2.2) (tree.mk nm d o s n sub)
        = tree.mk nm d o s n2 sub2 ∧
      n2 = (sub2.filter (fun c => c.is_dir)).length ∧ nsubOKL sub2 := by
  intro L
  induction L with
  | nil =>
    intro nm d o s n sub hn hsub
    exact ⟨n, sub, rfl, hn, hsub⟩
  | cons e L ihL =>
    intro nm d o s n sub hn hsub
    rw [List.foldl_cons]
    obtain ⟨n1, sub1, heq1, hc1, hs1⟩ :=
      insert_nsub e.1.length e.1 le_rfl nm d o s n sub e.2.1 e.2.2 hn hsub
    rw [heq1]
    exact ihL nm d o s n1 sub1 hc1 hs1

/-- C6 counterexample: the claim fails as stated.  After inserting the file
path 97 and then the path 97 slash 98, the file node 97 (is_dir false) has a
child, so the reachable-node invariant that a non-directory node has no
children is violated by this insert sequence. -/
theorem c6_counterexample :
    tree_insert (tree_insert tree_empty [97] 5 6) [97, 47, 98] 7 8
      = tree.mk [] true 0 0 0 [tree.mk [97] false 5 6 0 [tree.mk [98] false 7 8 0 []]] ∧
    ¬ filesLeafL (tree_insert (tree_insert tree_empty [97] 5 6) [97, 47, 98] 7 8).sub := by
  have heq : tree_insert (tree_insert tree_empty [97] 5 6) [97, 47, 98] 7 8
      = tree.mk [] true 0 0 0 [tree.mk [97] false 5 6 0 [tree.mk [98] false 7 8 0 []]] := by
    simp [tree_empty, tree_insert, splitSlash, slash, List.findIdx, List.findIdx.go,
      tree.name]
  refine ⟨heq, ?_⟩
  rw [heq]
  simp only [tree_sub_mk]
  rw [filesLeafL_cons]
  rintro ⟨h1, _⟩
  have := h1 rfl
  cases this

/-- C6 (amended): the nsubdirs half of the invariant holds unconditionally:
the fresh empty tree satisfies it and every sequence of inserts preserves it,
so in every built tree the nsubdirs of each node equals its number of direct
directory children.  The no-children-under-files half fails in general (see
the counterexample) but holds whenever the inserted paths are valid and
pairwise component-wise incomparable. -/
theorem c6_invariants :
    (∀ L : List (List Nat × Int × Int),
      (buildTree L).nsubdirs = ((buildTree L).sub.filter (fun c => c.is_dir)).length ∧
      nsubOKL (buildTree L).sub) ∧
    (tree_empty.nsubdirs = ((tree_empty.sub.filter (fun c => c.is_dir)).length) ∧
      tree_empty.is_dir = true ∧ tree_empty.name = [] ∧ tree_empty.sub = []) ∧
    (∀ L : List (List Nat × Int × Int), (∀ e ∈ L, validLast e.1) → pairwiseFree L →
      filesLeafL (buildTree L).sub) := by
  refine ⟨?_, ⟨by simp [tree_empty], by simp [tree_empty], by simp [tree_empty],
    by simp [tree_empty]⟩, ?_⟩
  · intro L
    obtain ⟨n2, sub2, heq, hc, hs⟩ := build_nsub L [] true 0 0 0 [] (by simp) nsubOKL_nil
    rw [buildTree, tree_empty, heq]
    exact ⟨by simpa using hc, by simpa using hs⟩
  · intro L hval hfree
    obtain ⟨n2, sub2, heq, hok, hperm⟩ :=
      build_ok L [] true 0 0 0 [] OKL_nil hval hfree (by simp)
    rw [buildTree, tree_empty, heq]
    simp only [tree_sub_mk]
    exact OKL_filesLeafL (sizeOf sub2) sub2 le_rfl hok

/-- Witness for C6: the third part of the invariant theorem applied to a
one-element insert list. -/
theorem c6_witness :
    (∀ e ∈ [(([97], 5, 6) : List Nat × Int × Int)], validLast e.1) ∧
    pairwiseFree [(([97], 5, 6) : List Nat × Int × Int)] ∧
    filesLeafL (buildTree [([97], 5, 6)]).sub := by
  have h1 : ∀ e ∈ [(([97], 5, 6) : List Nat × Int × Int)], validLast e.1 := by
    intro e he
    simp only [List.mem_singleton] at he
    subst he
    exact ⟨by simp, by simp [validLast, slash]⟩
  have h2 : pairwiseFree [(([97], 5, 6) : List Nat × Int × Int)] := by
    simp [pairwiseFree]
  exact ⟨h1, h2, c6_invariants.2.2 [([97], 5, 6)] h1 h2⟩

/-! ### Claim C2: on-disk record decoding and traversal order -/

/-- C2 counterexample: the claim fails at its boundary.  With a 13-byte buffer
and offset 0, exactly 13 bytes remain, so the claim says the record is present
and decoded, yet the traversal stops at once and emits nothing: the C guard is
filerecord_offset + 0xD >= dir_entry_size, which also rejects the 13-byte
case (a record needs 14 bytes before its name, since the name length byte
itself sits at offset o + 13). -/
theorem c2_counterexample :
    xbfs_recurse_file_subtree 1 0 [] (List.replicate 13 0) 0 = [] ∧
    ¬ ((List.replicate 13 0 : List Nat).length - 0 < 13) := by
  constructor
  · rfl
  · decide

/-- C2 (amended): the record at offset o is treated as absent exactly when
fewer than 14 bytes remain at o, that is when o + 13 is not a valid index;
otherwise the fields decode as the claim states: left and right pointers are
16-bit little-endian at o and o + 2, each scaled by 4; data sector and size
are 32-bit little-endian at o + 4 and o + 8; the attribute byte at o + 12
(bit 0x10 marks a directory); the name length byte at o + 13; the name is the
next name length bytes; and the left subtree is traversed before the own event
of the record, the right subtree after it. -/
theorem c2_record_traversal (fuel : Nat) (base : Int) (pre buf : List Nat) (o : Nat) :
    (buf.length ≤ o + 13 → xbfs_recurse_file_subtree (fuel + 1) base pre buf o = []) ∧
    (o + 13 < buf.length →
      xbfs_recurse_file_subtree (fuel + 1) base pre buf o =
        (if le16 buf o * 4 ≠ 0
         then xbfs_recurse_file_subtree fuel base pre buf (le16 buf o * 4) else []) ++
        (if buf.getD (o + 12) 0 &&& 16 ≠ 0
         then XEvent.dir ((pre ++ (buf.drop (o + 14)).take (buf.getD (o + 13) 0)) ++ [slash])
                (le32 buf (o + 4)) (le32 buf (o + 8))
         else XEvent.file (pre ++ (buf.drop (o + 14)).take (buf.getD (o + 13) 0))
                (base + (le32 buf (o + 4) : Int) * SECTOR_SIZE) (le32 buf (o + 8))) ::
        (if le16 buf (o + 2) * 4 ≠ 0
         then xbfs_recurse_file_subtree fuel base pre buf (le16 buf (o + 2) * 4) else [])) := by
  constructor
  · intro h
    rw [xbfs_recurse_file_subtree, if_pos (by omega)]
  · intro h
    rw [xbfs_recurse_file_subtree, if_neg (by omega)]

/-- Witness for C2: the two branches of the traversal theorem at concrete
inputs: a 13-byte buffer stops; a 34-byte single-file record emits one file
event with the decoded fields. -/
theorem c2_witness :
    ((List.replicate 13 0 : List Nat).length ≤ 0 + 13 ∧
      xbfs_recurse_file_subtree 1 0 [] (List.replicate 13 0) 0 = []) ∧
    (0 + 13 < ([0, 0, 0, 0, 1, 0, 0, 0, 2, 0, 0, 0, 0, 20] ++ List.replicate 20 98 : List Nat).length ∧
      xbfs_recurse_file_subtree 1 0 []
          ([0, 0, 0, 0, 1, 0, 0, 0, 2, 0, 0, 0, 0, 20] ++ List.replicate 20 98) 0 =
        (if le16 ([0, 0, 0, 0, 1, 0, 0, 0, 2, 0, 0, 0, 0, 20] ++ List.replicate 20 98) 0 * 4 ≠ 0
         then xbfs_recurse_file_subtree 0 0 []
            ([0, 0, 0, 0, 1, 0, 0, 0, 2, 0, 0, 0, 0, 20] ++ List.replicate 20 98)
            (le16 ([0, 0, 0, 0, 1, 0, 0, 0, 2, 0, 0, 0, 0, 20] ++ List.replicate 20 98) 0 * 4)
         else []) ++
        (if ([0, 0, 0, 0, 1, 0, 0, 0, 2, 0, 0, 0, 0, 20] ++ List.replicate 20 98 : List Nat).getD (0 + 12) 0 &&& 16 ≠ 0
         then XEvent.dir (([] ++ (([0, 0, 0, 0, 1, 0, 0, 0, 2, 0, 0, 0, 0, 20] ++ List.replicate 20 98 : List Nat).drop (0 + 14)).take
                (([0, 0, 0, 0, 1, 0, 0, 0, 2, 0, 0, 0, 0, 20] ++ List.replicate 20 98 : List Nat).getD (0 + 13) 0)) ++ [slash])
                (le32 ([0, 0, 0, 0, 1, 0, 0, 0, 2, 0, 0, 0, 0, 20] ++ List.replicate 20 98) (0 + 4))
                (le32 ([0, 0, 0, 0, 1, 0, 0, 0, 2, 0, 0, 0, 0, 20] ++ List.replicate 20 98) (0 + 8))
         else XEvent.file ([] ++ (([0, 0, 0, 0, 1, 0, 0, 0, 2, 0, 0, 0, 0, 20] ++ List.replicate 20 98 : List Nat).drop (0 + 14)).take
                (([0, 0, 0, 0, 1, 0, 0, 0, 2, 0, 0, 0, 0, 20] ++ List.replicate 20 98 : List Nat).getD (0 + 13) 0))
                (0 + (le32 ([0, 0, 0, 0, 1, 0, 0, 0, 2, 0, 0, 0, 0, 20] ++ List.replicate 20 98) (0 + 4) : Int) * SECTOR_SIZE)
                (le32 ([0, 0, 0, 0, 1, 0, 0, 0, 2, 0, 0, 0, 0, 20] ++ List.replicate 20 98) (0 + 8))) ::
        (if le16 ([0, 0, 0, 0, 1, 0, 0, 0, 2, 0, 0, 0, 0, 20] ++ List.replicate 20 98) (0 + 2) * 4 ≠ 0
         then xbfs_recurse_file_subtree 0 0 []
            ([0, 0, 0, 0, 1, 0, 0, 0, 2, 0, 0, 0, 0, 20] ++ List.replicate 20 98)
            (le16 ([0, 0, 0, 0, 1, 0, 0, 0, 2, 0, 0, 0, 0, 20] ++ List.replicate 20 98) (0 + 2) * 4)
         else [])) := by
  constructor
  · exact ⟨by decide, (c2_record_traversal 0 0 [] (List.replicate 13 0) 0).1 (by decide)⟩
  · refine ⟨by decide, ?_⟩
    exact (c2_record_traversal 0 0 []
      ([0, 0, 0, 0, 1, 0, 0, 0, 2, 0, 0, 0, 0, 20] ++ List.replicate 20 98) 0).2 (by decide)

/-! ### Claim C3: the signature scan -/

/-- The sector of the image starting at byte n * SECTOR_SIZE, as the scan
loads it. -/
def sectorAt (data : List Nat) (n : Nat) : List Nat :=
  (data.drop (n * SECTOR_SIZE)).take SECTOR_SIZE

/-- Sector n exists in full and its first 20 bytes equal the signature. -/
def sigFound (data : List Nat) (n : Nat) : Prop :=
  n * SECTOR_SIZE + SECTOR_SIZE ≤ data.length ∧ (sectorAt data n).take 20 = sigBytes

theorem scan_skip {data : List Nat} {pos : Nat}
    (h : ¬ (pos + SECTOR_SIZE ≤ data.length ∧
      ((data.drop pos).take SECTOR_SIZE).take 20 = sigBytes)) :
    xbfs_scan data pos = xbfs_scan data (pos + SECTOR_SIZE) := by
  by_cases hg : pos + SECTOR_SIZE ≤ data.length
  · have hsig : ¬ ((data.drop pos).take SECTOR_SIZE).take 20 = sigBytes := by
      intro hs
      exact h ⟨hg, hs⟩
    rw [xbfs_scan, if_pos hg, if_neg hsig]
  · rw [xbfs_scan, if_neg hg, xbfs_scan, if_neg (by simp [SECTOR_SIZE] at hg ⊢; omega)]

theorem scan_hit {data : List Nat} {pos : Nat}
    (h1 : pos + SECTOR_SIZE ≤ data.length)
    (h2 : ((data.drop pos).take SECTOR_SIZE).take 20 = sigBytes) :
    xbfs_scan data pos = some ((pos : Int) - 32 * SECTOR_SIZE,
      le32 ((data.drop pos).take SECTOR_SIZE) 20,
      le32 ((data.drop pos).take SECTOR_SIZE) 24) := by
  rw [xbfs_scan, if_pos h1, if_pos h2]

theorem scan_advance : ∀ (n : Nat) (data : List Nat),
    (∀ m, m < n → ¬ sigFound data m) →
    xbfs_scan data 0 = xbfs_scan data (n * SECTOR_SIZE) := by
  intro n
  induction n with
  | zero => intro data _; rfl
  | succ n ihn =>
    intro data h
    rw [ihn data (fun m hm => h m (by omega))]
    have hns : ¬ (n * SECTOR_SIZE + SECTOR_SIZE ≤ data.length ∧
        ((data.drop (n * SECTOR_SIZE)).take SECTOR_SIZE).take 20 = sigBytes) :=
      h n (by omega)
    have hs := scan_skip hns
    have harith : n * SECTOR_SIZE + SECTOR_SIZE = (n + 1) * SECTOR_SIZE := by ring
    rw [hs, harith]

theorem scan_none_aux : ∀ (k : Nat) (data : List Nat) (m : Nat),
    data.length ≤ m * SECTOR_SIZE + k → (∀ j, ¬ sigFound data j) →
    xbfs_scan data (m * SECTOR_SIZE) = none := by
  intro k
  induction k with
  | zero =>
    intro data m hlen _
    rw [xbfs_scan, if_neg (by simp [SECTOR_SIZE] at hlen ⊢; omega)]
  | succ k ihk =>
    intro data m hlen hno
    by_cases hg : m * SECTOR_SIZE + SECTOR_SIZE ≤ data.length
    · have hsig : ¬ ((data.drop (m * SECTOR_SIZE)).take SECTOR_SIZE).take 20 = sigBytes := by
        intro hs
        exact hno m ⟨hg, hs⟩
      rw [xbfs_scan, if_pos hg, if_neg hsig]
      have : m * SECTOR_SIZE + SECTOR_SIZE = (m + 1) * SECTOR_SIZE := by ring
      rw [this]
      exact ihk data (m + 1) (by simp [SECTOR_SIZE] at hlen ⊢; omega) hno
    · rw [xbfs_scan, if_neg hg]

/-- C3: when the first matching sector is sector n (no earlier sector
matches), the scan result carries the base offset n * 2048 - 32 * 2048 (the
matched byte offset minus 32 sectors) and the 32-bit little-endian root sector
and root size at byte offsets 0x14 and 0x18 of that sector; in particular a
match at sector 40 yields base offset (40 - 32) * 2048; and if no full sector
ever matches (including the short-read tail) the scan fails with none. -/
theorem c3_signature_scan :
    (∀ (data : List Nat) (n : Nat), (∀ m, m < n → ¬ sigFound data m) →
      sigFound data n →
      xbfs_scan data 0 = some (((n * SECTOR_SIZE : Nat) : Int) - 32 * SECTOR_SIZE,
        le32 (sectorAt data n) 20, le32 (sectorAt data n) 24)) ∧
    (∀ (data : List Nat) (n : Nat), (∀ m, m < n → ¬ sigFound data m) →
      sigFound data n → n = 40 →
      xbfs_scan data 0 = some (((40 - 32) * 2048 : Int),
        le32 (sectorAt data n) 20, le32 (sectorAt data n) 24)) ∧
    (∀ data : List Nat, (∀ j, ¬ sigFound data j) → xbfs_scan data 0 = none) := by
  have main : ∀ (data : List Nat) (n : Nat), (∀ m, m < n → ¬ sigFound data m) →
      sigFound data n →
      xbfs_scan data 0 = some (((n * SECTOR_SIZE : Nat) : Int) - 32 * SECTOR_SIZE,
        le32 (sectorAt data n) 20, le32 (sectorAt data n) 24) := by
    intro data n hbefore hfound
    rw [scan_advance n data hbefore]
    obtain ⟨h1, h2⟩ := hfound
    rw [scan_hit h1 h2]
    rfl
  refine ⟨main, ?_, ?_⟩
  · intro data n hbefore hfound hn
    subst hn
    rw [main data 40 hbefore hfound]
    norm_num [SECTOR_SIZE]
  · intro data hno
    have := scan_none_aux data.length data 0 (by omega) hno
    simpa using this

/-- Witness for C3: an image that is exactly one signature sector (the 20
signature bytes followed by 2028 zero bytes) matches at sector 0, giving base
offset -65536; and the empty image fails the scan. -/
theorem c3_witness :
    sigFound (sigBytes ++ List.replicate 2028 0) 0 ∧
    xbfs_scan (sigBytes ++ List.replicate 2028 0) 0
      = some ((((0 * SECTOR_SIZE : Nat) : Int) - 32 * SECTOR_SIZE),
        le32 (sectorAt (sigBytes ++ List.replicate 2028 0) 0) 20,
        le32 (sectorAt (sigBytes ++ List.replicate 2028 0) 0) 24) ∧
    xbfs_scan [] 0 = none := by
  have hlen : (sigBytes ++ List.replicate 2028 0 : List Nat).length = 2048 := by
    rw [List.length_append, List.length_replicate]
    rfl
  have h3 : List.take SECTOR_SIZE (sigBytes ++ List.replicate 2028 0)
      = sigBytes ++ List.replicate 2028 0 := by
    apply List.take_of_length_le
    rw [hlen]
    exact Nat.le_refl 2048
  have h4 : (sigBytes ++ List.replicate 2028 0).take 20 = sigBytes :=
    List.take_left' rfl
  have hfound : sigFound (sigBytes ++ List.replicate 2028 0) 0 := by
    refine ⟨?_, ?_⟩
    · rw [hlen]
      exact Nat.le_refl 2048
    · rw [sectorAt]
      simp only [Nat.zero_mul, List.drop_zero]
      rw [h3, h4]
  refine ⟨hfound, ?_, ?_⟩
  · exact c3_signature_scan.1 (sigBytes ++ List.replicate 2028 0) 0
      (fun m hm => absurd hm (by omega)) hfound
  · apply c3_signature_scan.2.2 []
    intro j hj
    obtain ⟨h1, _⟩ := hj
    rw [List.length_nil, SECTOR_SIZE] at h1
    omega

/-! ### Claim C4: no bounds check on the accumulated path -/

/-- C4: the source performs no bounds check at all on the accumulated path.
Evaluating the traversal with a 1020-byte prefix and a record bearing a
20-byte name (total 1040 bytes, beyond NAME_MAX_SIZE = 1024) produces an
ordinary insert event with the oversized path and no error of any kind: in
the C code the same input overflows the fixed name_copy buffer on the stack
instead of failing the entry with a bounds error as the claim requires. -/
theorem c4_no_bounds_check :
    xbfs_recurse_file_subtree 1 0 (List.replicate 1020 97)
        ([0, 0, 0, 0, 1, 0, 0, 0, 2, 0, 0, 0, 0, 20] ++ List.replicate 20 98) 0
      = [XEvent.file (List.replicate 1020 97 ++ List.replicate 20 98) 2048 2] ∧
    (List.replicate 1020 97 ++ List.replicate 20 98 : List Nat).length > NAME_MAX_SIZE := by
  constructor
  · rw [(c2_record_traversal 0 0 (List.replicate 1020 97)
      ([0, 0, 0, 0, 1, 0, 0, 0, 2, 0, 0, 0, 0, 20] ++ List.replicate 20 98) 0).2 (by decide)]
    have e1 : le16 ([0, 0, 0, 0, 1, 0, 0, 0, 2, 0, 0, 0, 0, 20] ++ List.replicate 20 98) 0 * 4
        = 0 := by decide
    have e2 : le16 ([0, 0, 0, 0, 1, 0, 0, 0, 2, 0, 0, 0, 0, 20] ++ List.replicate 20 98) (0 + 2) * 4
        = 0 := by decide
    have e3 : ([0, 0, 0, 0, 1, 0, 0, 0, 2, 0, 0, 0, 0, 20] ++ List.replicate 20 98 : List Nat).getD (0 + 12) 0
        = 0 := by decide
    have e4 : ([0, 0, 0, 0, 1, 0, 0, 0, 2, 0, 0, 0, 0, 20] ++ List.replicate 20 98 : List Nat).getD (0 + 13) 0
        = 20 := by decide
    have e5 : le32 ([0, 0, 0, 0, 1, 0, 0, 0, 2, 0, 0, 0, 0, 20] ++ List.replicate 20 98) (0 + 4)
        = 1 := by decide
    have e6 : le32 ([0, 0, 0, 0, 1, 0, 0, 0, 2, 0, 0, 0, 0, 20] ++ List.replicate 20 98) (0 + 8)
        = 2 := by decide
    have e7 : (([0, 0, 0, 0, 1, 0, 0, 0, 2, 0, 0, 0, 0, 20] ++ List.replicate 20 98 : List Nat).drop (0 + 14)).take 20
        = List.replicate 20 98 := by decide
    rw [e1, e2, e3, e4, e5, e6, e7]
    norm_num [SECTOR_SIZE]
  · rw [List.length_append, List.length_replicate, List.length_replicate, NAME_MAX_SIZE]
    decide

/-! ### Claim C5: read clipping and error returns -/

/-- C5: tree_read fails with -ENOENT on an absent path and with -EISDIR on a
directory; an offset at or beyond the file size returns zero bytes with no
error; otherwise the length is clipped so that offset plus length does not
exceed the size, and a request with offset + length > size transfers exactly
size - offset bytes whenever the backing image covers the file extent (a
shorter image gives the correspondingly short read, per the read syscall). -/
theorem c5_read_clipping (root : tree) (path : List Nat) (len : Nat) (off : Int)
    (data : List Nat) :
    (tree_find_entry root path = none →
      tree_read root path len off data = .error (-ENOENT)) ∧
    (∀ nd, tree_find_entry root path = some nd → nd.is_dir = true →
      tree_read root path len off data = .error (-EISDIR)) ∧
    (∀ nd, tree_find_entry root path = some nd → nd.is_dir = false →
      off ≥ nd.size → tree_read root path len off data = .ok []) ∧
    (∀ nd, tree_find_entry root path = some nd → nd.is_dir = false →
      0 ≤ off → off < nd.size → off + (len : Int) > nd.size →
      0 ≤ nd.offset → (nd.offset + nd.size).toNat ≤ data.length →
      ∃ bytes, tree_read root path len off data = .ok bytes ∧
        (bytes.length : Int) = nd.size - off) := by
  refine ⟨?_, ?_, ?_, ?_⟩
  · intro h
    rw [tree_read, h]
  · intro nd h hd
    rw [tree_read, h]
    simp [hd]
  · intro nd h hd hoff
    rw [tree_read, h]
    simp [hd, hoff]
  · intro nd h hd h0 hlt hover hndo hcov
    rw [tree_read, h]
    simp only [hd, Bool.false_eq_true, if_false, not_le.mpr hlt, ge_iff_le,
      if_neg (not_le.mpr hlt), if_pos hover]
    refine ⟨_, rfl, ?_⟩
    rw [List.length_take, List.length_drop]
    omega

/-- Witness for C5: all four branches at concrete inputs over the tree holding
one file (path 97, offset 2, size 5) and a 10-byte image.  A read of 9 bytes
at offset 3 is clipped to the 2 remaining bytes. -/
theorem c5_witness :
    (tree_find_entry (tree_insert tree_empty [97] 2 5) [47, 98] = none ∧
      tree_read (tree_insert tree_empty [97] 2 5) [47, 98] 9 3 [0, 1, 2, 3, 4, 5, 6, 7, 8, 9]
        = .error (-ENOENT)) ∧
    (tree_find_entry (tree_insert tree_empty [97] 2 5) [47, 97]
        = some (tree.mk [97] false 2 5 0 []) ∧
      tree_read (tree_insert tree_empty [97] 2 5) [47, 97] 9 7 [0, 1, 2, 3, 4, 5, 6, 7, 8, 9]
        = .ok []) ∧
    (∃ bytes, tree_read (tree_insert tree_empty [97] 2 5) [47, 97] 9 3
        [0, 1, 2, 3, 4, 5, 6, 7, 8, 9] = .ok bytes ∧ (bytes.length : Int) = 5 - 3) := by
  have hfind : tree_find_entry (tree_insert tree_empty [97] 2 5) [47, 97]
      = some (tree.mk [97] false 2 5 0 []) := by
    simp [tree_empty, tree_insert, splitSlash, slash, tree_find_entry, tree_find_list,
      tree.name, tree.sub, List.isPrefixOf]
  have hmiss : tree_find_entry (tree_insert tree_empty [97] 2 5) [47, 98] = none := by
    simp [tree_empty, tree_insert, splitSlash, slash, tree_find_entry, tree_find_list,
      tree.name, tree.sub, List.isPrefixOf]
  refine ⟨⟨hmiss, ?_⟩, ⟨hfind, ?_⟩, ?_⟩
  · exact (c5_read_clipping (tree_insert tree_empty [97] 2 5) [47, 98] 9 3
      [0, 1, 2, 3, 4, 5, 6, 7, 8, 9]).1 hmiss
  · exact (c5_read_clipping (tree_insert tree_empty [97] 2 5) [47, 97] 9 7
      [0, 1, 2, 3, 4, 5, 6, 7, 8, 9]).2.2.1 _ hfind rfl (by decide)
  · have := (c5_read_clipping (tree_insert tree_empty [97] 2 5) [47, 97] 9 3
      [0, 1, 2, 3, 4, 5, 6, 7, 8, 9]).2.2.2 _ hfind rfl (by decide) (by decide)
      (by decide) (by decide) (by decide)
    simpa using this

/-! ### Claim C7: open semantics -/

/-- Modelled from the spec: write intent means opening for writing or
read-write, that is the POSIX access mode (the low two flag bits) equals
O_WRONLY or O_RDWR. -/
def write_requested (flags : Nat) : Prop :=
  flags &&& 3 = O_WRONLY ∨ flags &&& 3 = O_RDWR

/-- C7 counterexample: the claim fails in both directions.  An open with
O_RDWR (read-write, clearly write intent) on a present path succeeds with 0
rather than failing read-only, because the code tests only the O_WRONLY bit;
and an open with O_WRONLY on an ABSENT path fails with -EROFS, not -ENOENT,
because the write check precedes the lookup. -/
theorem c7_counterexample :
    write_requested O_RDWR ∧
    tree_open O_RDWR (tree_insert tree_empty [97] 1 2) [47, 97] = 0 ∧
    ((0 : Int) ≠ -EROFS) ∧
    tree_find_entry tree_empty [47, 97] = none ∧
    write_requested O_WRONLY ∧
    tree_open O_WRONLY tree_empty [47, 97] = -EROFS ∧
    ((-EROFS : Int) ≠ -ENOENT) := by
  refine ⟨Or.inr rfl, ?_, by decide, ?_, Or.inl rfl, ?_, by decide⟩
  · rw [tree_open, if_neg (by decide)]
    have hfind : tree_find_entry (tree_insert tree_empty [97] 1 2) [47, 97]
        = some (tree.mk [97] false 1 2 0 []) := by
      simp [tree_empty, tree_insert, splitSlash, slash, tree_find_entry, tree_find_list,
        tree.name, tree.sub, List.isPrefixOf]
    rw [hfind]
  · simp [tree_empty, tree_find_entry, tree_find_list, tree.name, tree.sub,
      List.isPrefixOf, slash]
  · rw [tree_open, if_pos (by decide)]

/-- C7 (amended): tree_open rejects with -EROFS exactly the requests whose
O_WRONLY bit is set, before any lookup (so even absent paths get -EROFS
then); read-write requests are not rejected.  With the O_WRONLY bit clear, an
absent path fails with -ENOENT and a present path succeeds with 0; no state
is created (the operation only reads the tree). -/
theorem c7_open_semantics (flags : Nat) (root : tree) (path : List Nat) :
    (flags &&& O_WRONLY ≠ 0 → tree_open flags root path = -EROFS) ∧
    (flags &&& O_WRONLY = 0 → tree_find_entry root path = none →
      tree_open flags root path = -ENOENT) ∧
    (flags &&& O_WRONLY = 0 → ∀ nd, tree_find_entry root path = some nd →
      tree_open flags root path = 0) := by
  refine ⟨?_, ?_, ?_⟩
  · intro h
    rw [tree_open, if_pos h]
  · intro h hnone
    rw [tree_open, if_neg (by simp [h]), hnone]
  · intro h nd hsome
    rw [tree_open, if_neg (by simp [h]), hsome]

/-- Witness for C7: the three branches at concrete inputs. -/
theorem c7_witness :
    ((O_WRONLY &&& O_WRONLY ≠ 0) ∧ tree_open O_WRONLY tree_empty [47, 97] = -EROFS) ∧
    ((0 &&& O_WRONLY = 0) ∧ tree_find_entry tree_empty [47, 97] = none ∧
      tree_open 0 tree_empty [47, 97] = -ENOENT) ∧
    ∃ nd, tree_find_entry (tree_insert tree_empty [97] 1 2) [47, 97] = some nd ∧
      tree_open 0 (tree_insert tree_empty [97] 1 2) [47, 97] = 0 := by
  have hmiss : tree_find_entry tree_empty [47, 97] = none := by
    simp [tree_empty, tree_find_entry, tree_find_list, tree.name, tree.sub,
      List.isPrefixOf, slash]
  have hfind : tree_find_entry (tree_insert tree_empty [97] 1 2) [47, 97]
      = some (tree.mk [97] false 1 2 0 []) := by
    simp [tree_empty, tree_insert, splitSlash, slash, tree_find_entry, tree_find_list,
      tree.name, tree.sub, List.isPrefixOf]
  refine ⟨⟨by decide, ?_⟩, ⟨by decide, hmiss, ?_⟩, ?_⟩
  · exact (c7_open_semantics O_WRONLY tree_empty [47, 97]).1 (by decide)
  · exact (c7_open_semantics 0 tree_empty [47, 97]).2.1 (by decide) hmiss
  · exact ⟨_, hfind, (c7_open_semantics 0 (tree_insert tree_empty [97] 1 2) [47, 97]).2.2
      (by decide) _ hfind⟩

/-! ### Claim C10: readdir order -/

/-- Inserting single-component paths only prepends file leaves, so the child
list ends up holding the new leaves in reverse insertion order, in front of
whatever was there, and nsubdirs never moves. -/
theorem build_flat : ∀ (L : List (List Nat × Int × Int)) (nm : List Nat) (d : Bool)
    (o s : Int) (n : Nat) (sub : List tree),
    (∀ p ∈ L, p.1 ≠ [] ∧ slash ∉ p.1) →
    L.foldl (fun t e => tree_insert t e.1 e.2.1 e.2.2) (tree.mk nm d o s n sub)
      = tree.mk nm d o s n
        ((L.map (fun e => tree.mk e.1 false e.2.1 e.2.2 0 [])).reverse ++ sub) := by
  intro L
  induction L with
  | nil =>
    intro nm d o s n sub _
    simp
  | cons e L ihL =>
    intro nm d o s n sub h
    rw [List.foldl_cons]
    obtain ⟨hne, hns⟩ := h e (List.mem_cons_self ..)
    rw [tree_insert_file hne (splitSlash_of_not_mem hns) nm d o s n sub e.2.1 e.2.2]
    rw [ihL nm d o s n _ (fun p hp => h p (List.mem_cons_of_mem _ hp))]
    simp

/-- The root lookup for the path consisting of a single slash returns the
root node itself (the empty remainder branch of tree_find_entry). -/
theorem tree_find_entry_slash (d : Bool) (o s : Int) (n : Nat) (sub : List tree) :
    tree_find_entry (tree.mk [] d o s n sub) [slash] = some (tree.mk [] d o s n sub) := by
  rw [tree_find_entry]
  simp

/-- C10: a directory listing emits dot and dotdot first and then the direct
children in sibling list order; since every insert prepends its new child at
the head, listing a directory built from a sequence of file inserts shows the
names in reverse insertion order, hence the reverse of the on-disk in-order
traversal sequence that drives the insertions. -/
theorem c10_readdir_order :
    (∀ (root : tree) (path : List Nat) (nd : tree),
      tree_find_entry root path = some nd → nd.is_dir = true →
      tree_readdir root path = .ok ([46] :: [46, 46] :: nd.sub.map tree.name)) ∧
    (∀ L : List (List Nat × Int × Int), (∀ p ∈ L, p.1 ≠ [] ∧ slash ∉ p.1) →
      tree_readdir (buildTree L) [slash]
        = .ok ([46] :: [46, 46] :: (L.map (fun e => e.1)).reverse)) := by
  constructor
  · intro root path nd h hd
    rw [tree_readdir, h]
    simp [hd]
  · intro L h
    rw [buildTree, tree_empty, build_flat L [] true 0 0 0 [] h]
    rw [tree_readdir, tree_find_entry_slash]
    simp [List.map_reverse, Function.comp]

/-- Witness for C10: two file inserts (paths 97 then 98) list as dot, dotdot,
then 98 before 97. -/
theorem c10_witness :
    (∀ p ∈ [(([97], 1, 2) : List Nat × Int × Int), ([98], 3, 4)], p.1 ≠ [] ∧ slash ∉ p.1) ∧
    tree_readdir (buildTree [([97], 1, 2), ([98], 3, 4)]) [slash]
      = .ok [[46], [46, 46], [98], [97]] := by
  have h : ∀ p ∈ [(([97], 1, 2) : List Nat × Int × Int), ([98], 3, 4)],
      p.1 ≠ [] ∧ slash ∉ p.1 := by
    intro p hp
    rcases List.mem_cons.mp hp with hh | hh
    · subst hh
      exact ⟨by simp, by simp [slash]⟩
    · simp only [List.mem_singleton] at hh
      subst hh
      exact ⟨by simp, by simp [slash]⟩
  refine ⟨h, ?_⟩
  have := c10_readdir_order.2 [([97], 1, 2), ([98], 3, 4)] h
  simpa using this
